import Mathlib

/-!
Verification of the workflow orchestration engine (backend/app/services):
a shallow embedding of the graph data model (models/workflow_models.py),
the dependency resolver and execution service
(services/workflow_execution_service.py), the executor contract
(services/execution/base_executor.py) and the dynamic endpoint publisher
(services/dynamic_route_service.py), together with proofs of the
documented properties.

Conventions of the embedding:
* Python values (the `Any`-typed payloads threaded between nodes) are
  modelled by the inductive `PyVal`; Python `None` is the constructor
  `PyVal.none`, Python dicts are association lists in insertion order.
* Python float literals appearing in inert configuration tables are
  modelled as rationals (`PyVal.num`); no arithmetic is performed on them.
* Python dict update keeps the position of an existing key and appends a
  new key at the end; `dict_set` mirrors this on association lists.
* Fallible Python code (`raise`) is modelled with `Except`/`Option`.
* Mutable state (`ExecutionContext`, the publisher's registries) is
  modelled by explicit state passing.
* Display-only fields ignored by the engine (`position`, handles,
  timestamps, float duration fields) are omitted from the structures.
-/

/-- NodeType enum from workflow_models.py. -/
inductive NodeType
  | document
  | claude4
  | groqllama
  | gemini
  | chatbot
  | graphrag
  | embeddings
  | image
  | search
  | api
  | vapi
  | logical_connector
  deriving DecidableEq, Repr

/-- The `.value` string of a NodeType member. -/
def NodeType.str : NodeType → String
  | .document => "document"
  | .claude4 => "claude4"
  | .groqllama => "groqllama"
  | .gemini => "gemini"
  | .chatbot => "chatbot"
  | .graphrag => "graphrag"
  | .embeddings => "embeddings"
  | .image => "image"
  | .search => "search"
  | .api => "api"
  | .vapi => "vapi"
  | .logical_connector => "logical_connector"

/-- ExecutionStatus enum from workflow_models.py. -/
inductive ExecutionStatus
  | pending
  | running
  | completed
  | failed
  | skipped
  deriving DecidableEq, Repr

/-- LogLevel enum from workflow_models.py. -/
inductive LogLevel
  | debug
  | info
  | warning
  | error
  deriving DecidableEq, Repr

/-- Model of the opaque Python values threaded between nodes.  Python
dicts are association lists in insertion order; Python floats occurring
in inert configuration data are modelled as rationals. -/
inductive PyVal
  | none
  | bool (b : Bool)
  | int (n : Int)
  | num (q : ℚ)
  | str (s : String)
  | list (xs : List PyVal)
  | dict (entries : List (String × PyVal))

/-- Python truthiness of a value (used by `dict.get` based tests). -/
def PyVal.truthy : PyVal → Bool
  | .none => false
  | .bool b => b
  | .int n => decide (n ≠ 0)
  | .num q => decide (q ≠ 0)
  | .str s => decide (s ≠ "")
  | .list xs => !xs.isEmpty
  | .dict es => !es.isEmpty

/-- Lookup in a Python dict modelled as an association list: the first
entry with the given key wins (keys are unique in dicts built by the
code, where `dict_set` keeps them unique). -/
def dict_get {α : Type} (d : List (String × α)) (k : String) : Option α :=
  (d.find? (fun p => p.1 = k)).map (fun p => p.2)

/-- Python `d[k] = v`: update the value in place if the key exists,
otherwise append the new binding at the end. -/
def dict_set {α : Type} (d : List (String × α)) (k : String) (v : α) : List (String × α) :=
  if (d.find? (fun p => p.1 = k)).isSome then
    d.map (fun p => if p.1 = k then (k, v) else p)
  else
    d ++ [(k, v)]

/-- WorkflowNode from workflow_models.py (engine-relevant fields; the
display-only `position` is omitted). -/
structure WorkflowNode where
  id : String
  type : NodeType
  data : List (String × PyVal) := []
  config : List (String × PyVal) := []

/-- WorkflowEdge from workflow_models.py (the uninterpreted optional
handles are omitted). -/
structure WorkflowEdge where
  id : String
  source : String
  target : String
  deriving DecidableEq, Repr

/-- WorkflowDefinition from workflow_models.py (engine-relevant fields). -/
structure WorkflowDefinition where
  name : String
  nodes : List WorkflowNode
  edges : List WorkflowEdge

/-- ExecutionLog from workflow_models.py (timestamp and structured
details omitted). -/
structure ExecutionLog where
  level : LogLevel
  message : String
  node_id : Option String := Option.none
  deriving DecidableEq, Repr

/-- NodeExecutionResult from workflow_models.py.  `output_data` is an
`Optional[Any]` defaulting to `None`; here the Python `None` default is
`PyVal.none`.  The float duration field is omitted. -/
structure NodeExecutionResult where
  node_id : String
  status : ExecutionStatus
  output_data : PyVal := PyVal.none
  error_message : Option String := Option.none
  logs : List ExecutionLog := []

/-- ExecutionContext from base_executor.py: the per-run mutable state
(the node-id to result map and the append-only log; the variable store
and workflow data bag are carried but unused by the claims). -/
structure ExecutionContext where
  execution_id : String
  node_results : List (String × NodeExecutionResult) := []
  logs : List ExecutionLog := []

/-- ExecutionContext.log: append a log entry. -/
def ExecutionContext.log (ctx : ExecutionContext) (level : LogLevel) (message : String)
    (node_id : Option String := Option.none) : ExecutionContext :=
  { ctx with logs := ctx.logs ++ [{ level := level, message := message, node_id := node_id }] }

/-- ExecutionContext.get_node_output: `result.output_data if result else
None` on the node-results dict. -/
def ExecutionContext.get_node_output (ctx : ExecutionContext) (node_id : String) : PyVal :=
  match dict_get ctx.node_results node_id with
  | Option.none => PyVal.none
  | Option.some r => r.output_data

/-- ExecutionContext.set_node_result: store a result under its node id. -/
def ExecutionContext.set_node_result (ctx : ExecutionContext) (result : NodeExecutionResult) :
    ExecutionContext :=
  { ctx with node_results := dict_set ctx.node_results result.node_id result }

/-! ## Dependency resolver (workflow_execution_service.py lines 331-399) -/

/-- The adjacency list built by both resolver algorithms: for each edge,
`graph[edge.source].append(edge.target)`, so the successors of `u` are
the targets of the edges leaving `u`, in edge-list order.  (The Python
dict is keyed by the node ids; on validated workflows every edge source
is a node id, and only node ids are ever looked up.) -/
def adjacency (edges : List WorkflowEdge) (u : String) : List String :=
  (edges.filter (fun e => e.source = u)).map (fun e => e.target)

/-- The initial in-degree computed by `_topological_sort`: the number of
edges pointing at `v` (Python ints are modelled as `Int` so that the
decrements below cannot silently truncate). -/
def in_degree0 (edges : List WorkflowEdge) (v : String) : Int :=
  ((edges.filter (fun e => e.target = v)).length : Int)

/-- The inner loop of Kahn's algorithm: decrement the in-degree of each
successor of the popped node in order, appending a successor to the
queue at the moment its in-degree reaches zero. -/
def dec_neighbors : List String → (String → Int) → List String →
    ((String → Int) × List String)
  | [], indeg, queue => (indeg, queue)
  | n :: ns, indeg, queue =>
    let d := indeg n - 1
    let indeg' : String → Int := fun v => if v = n then d else indeg v
    let queue' := if d = 0 then queue ++ [n] else queue
    dec_neighbors ns indeg' queue'

/-- The sort order of Python's `list.sort()` on node-id strings:
lexicographic by code points, i.e. lexicographic on the character data
(provably the same relation as Lean's `String` order, see `id_le_iff`,
but with a kernel-computable `Decidable` instance). -/
def id_le (a b : String) : Prop := a.data ≤ b.data

instance id_le_decidable : DecidableRel id_le := fun a b =>
  inferInstanceAs (Decidable (a.data ≤ b.data))

theorem id_le_iff (a b : String) : id_le a b ↔ a ≤ b := by
  rw [String.le_iff_toList_le]
  exact Iff.rfl

/-- The while-loop of `_topological_sort` (Kahn's algorithm): sort the
queue, pop its first (lexicographically smallest) element, emit it, and
process its successors.  The Python loop runs until the queue is empty;
`fuel` bounds the iteration count and is chosen large enough that it
never runs out (each iteration emits one node, and a node enters the
queue at most once at start plus at most once when its decremented
in-degree hits zero). -/
def kahn_loop (adj : String → List String) :
    Nat → List String → (String → Int) → List String → List String
  | _, [], _, result => result
  | 0, _, _, result => result
  | Nat.succ fuel, queue, indeg, result =>
    match queue.insertionSort id_le with
    | [] => result
    | cur :: rest =>
      let step := dec_neighbors (adj cur) indeg rest
      kahn_loop adj fuel step.2 step.1 (result ++ [cur])

/-- `_topological_sort` from workflow_execution_service.py, returning the
execution order as the list of node ids (the Python code returns the
node objects, which correspond one-to-one to their ids on a validated
workflow); `none` models the `ValueError` raised when not all nodes were
emitted (a cycle). -/
def topological_sort (nodes : List WorkflowNode) (edges : List WorkflowEdge) :
    Option (List String) :=
  let ids := nodes.map (fun n => n.id)
  let indeg := in_degree0 edges
  let queue0 := ids.filter (fun v => indeg v = 0)
  let result := kahn_loop (adjacency edges) (2 * ids.length + 1) queue0 indeg []
  if result.length = ids.length then Option.some result else Option.none

/-- The step relation of the directed graph described by an edge list. -/
def edgeRel (edges : List WorkflowEdge) (u v : String) : Prop :=
  ∃ e ∈ edges, e.source = u ∧ e.target = v

/-- A directed cycle exists: some node reaches itself through at least
one edge. -/
def HasCycle (edges : List WorkflowEdge) : Prop :=
  ∃ v, Relation.TransGen (edgeRel edges) v v

/-- The mutable state of the three-colour DFS in `_has_cycles`: the gray
set (nodes on the current DFS stack) and the black set (completely
processed nodes).  White is everything else.  The Python sets are
modelled as lists; only membership, insertion and removal are used, and
the black list ends up in finishing order (most recent first), which the
correctness proof exploits. -/
structure DfsState where
  gray : List String
  black : List String

/-- The `for neighbor in graph[node_id]` loop inside `dfs`: visit each
neighbour with the given recursive visitor, returning true as soon as
one visit reports a cycle. -/
def dfs_list_go (visit : String → DfsState → Bool × DfsState) :
    List String → DfsState → Bool × DfsState
  | [], s => (false, s)
  | v :: rest, s =>
    match visit v s with
    | (true, s1) => (true, s1)
    | (false, s1) => dfs_list_go visit rest s1

/-- The recursive `dfs` function of `_has_cycles`: a gray node signals a
cycle, a black node is skipped, otherwise the node is painted gray, its
successors are visited, and on success it is repainted black.  `fuel`
bounds the recursion depth; it never runs out when it starts at least at
the number of white nodes plus one, since every nested call is made with
one more node painted gray. -/
def dfs_visit (adj : String → List String) : Nat → String → DfsState → Bool × DfsState
  | fuel, u, s =>
    if u ∈ s.gray then (true, s)
    else if u ∈ s.black then (false, s)
    else
      match fuel with
      | 0 => (true, s)
      | Nat.succ fuel1 =>
        match dfs_list_go (dfs_visit adj fuel1) (adj u) ⟨u :: s.gray, s.black⟩ with
        | (true, s2) => (true, s2)
        | (false, s2) => (false, ⟨s2.gray.erase u, u :: s2.black⟩)

/-- The `while white` loop of `_has_cycles`: run `dfs` from every still
white node.  Python iterates over an unordered set; the boolean result
is independent of that order (this is part of what the correctness
theorem establishes), and the embedding fixes node-list order. -/
def has_cycles_loop (adj : String → List String) (fuel : Nat) :
    List String → DfsState → Bool
  | [], _ => false
  | n :: rest, s =>
    if n ∈ s.gray ∨ n ∈ s.black then has_cycles_loop adj fuel rest s
    else
      match dfs_visit adj fuel n s with
      | (true, _) => true
      | (false, s1) => has_cycles_loop adj fuel rest s1

/-- `_has_cycles` from workflow_execution_service.py. -/
def has_cycles (nodes : List WorkflowNode) (edges : List WorkflowEdge) : Bool :=
  let ids := nodes.map (fun n => n.id)
  has_cycles_loop (adjacency edges) (ids.length + 1) ids ⟨[], []⟩

/-! ## Node input aggregation (workflow_execution_service.py lines 401-426) -/

/-- The `inputs` dict built by the multi-input branch of
`_get_node_input_data`: one assignment per incoming edge, in edge order
(a duplicated source overwrites its own entry in place). -/
def build_inputs (input_edges : List WorkflowEdge) (ctx : ExecutionContext) :
    List (String × PyVal) :=
  input_edges.foldl (fun acc e => dict_set acc e.source (ctx.get_node_output e.source)) []

/-- `_get_node_input_data`: no incoming edge yields the run's initial
input, a single incoming edge yields that predecessor's recorded output
directly, several incoming edges yield the dict from source node id to
recorded output. -/
def get_node_input_data (node : WorkflowNode) (edges : List WorkflowEdge)
    (ctx : ExecutionContext) (initial_input : PyVal) : PyVal :=
  match edges.filter (fun e => e.target = node.id) with
  | [] => initial_input
  | [e] => ctx.get_node_output e.source
  | es => PyVal.dict (build_inputs es ctx)

/-! ## Workflow validation and the execution loop
(workflow_execution_service.py lines 34-273) -/

/-- The blocking part of `_validate_workflow`: empty workflow, duplicate
node ids, dangling edge endpoints, cycles.  Per-node configuration
problems and missing GraphRAG database connections are only logged as
warnings and never block the run, so they do not contribute here. -/
def validate_workflow (wf : WorkflowDefinition) : List String :=
  if wf.nodes.isEmpty then ["Workflow has no nodes"]
  else
    let node_ids := wf.nodes.map (fun n => n.id)
    let dup_errors :=
      if node_ids.length = node_ids.dedup.length then [] else ["Duplicate node IDs found"]
    let edge_errors := wf.edges.foldl (fun acc e =>
      let acc1 :=
        if wf.nodes.any (fun n => n.id = e.source) then acc
        else acc ++ ["Edge references non-existent source node: " ++ e.source]
      if wf.nodes.any (fun n => n.id = e.target) then acc1
      else acc1 ++ ["Edge references non-existent target node: " ++ e.target]) []
    let cycle_errors :=
      if has_cycles wf.nodes wf.edges then ["Workflow contains cycles"] else []
    dup_errors ++ edge_errors ++ cycle_errors

/-- `node_map[execution-order id]`: recover the node object for an
emitted id (unique on a validated workflow). -/
def node_by_id (nodes : List WorkflowNode) (i : String) : Option WorkflowNode :=
  nodes.find? (fun n => n.id = i)

/-- The per-node loop of `execute_workflow` (lines 86-127): each node in
topological order receives its aggregated input, is run, and its result
is recorded into the context before the next node starts.  The behaviour
of `_execute_node` (executor dispatch plus its own exception guard) is
abstracted by `exec`; the loop continues regardless of failures
(continue-on-error). -/
def run_nodes (exec : WorkflowNode → ExecutionContext → PyVal → NodeExecutionResult) :
    List WorkflowNode → List WorkflowEdge → ExecutionContext → PyVal →
    List NodeExecutionResult → (List NodeExecutionResult × ExecutionContext)
  | [], _, ctx, _, acc => (acc, ctx)
  | node :: rest, edges, ctx, initial, acc =>
    let input := get_node_input_data node edges ctx initial
    let result := exec node ctx input
    run_nodes exec rest edges (ctx.set_node_result result) initial (acc ++ [result])

/-- WorkflowExecutionResult from workflow_models.py (engine-relevant
fields; timestamps, float duration and the log list are omitted). -/
structure WorkflowExecutionResult where
  execution_id : String
  status : ExecutionStatus
  node_results : List NodeExecutionResult := []
  final_output : PyVal := PyVal.none
  errors : List String := []

/-- `execute_workflow` (lines 34-218): validate, topologically sort, run
every node in order, then aggregate: status is `failed` iff some node
result is `failed`; the final output is the `output_data` of the last
node in execution order whose status is `completed` (`None` when no node
completed); the error list collects the failed results' messages.
Validation failure and the cycle `ValueError` take the exception path: a
`failed` aggregate with no node results and the message as its only
error. -/
def execute_workflow
    (exec : WorkflowNode → ExecutionContext → PyVal → NodeExecutionResult)
    (workflow : WorkflowDefinition) (input_data : PyVal)
    (execution_id : String := "run") : WorkflowExecutionResult :=
  let validation_errors := validate_workflow workflow
  if validation_errors.isEmpty then
    match topological_sort workflow.nodes workflow.edges with
    | Option.none =>
      { execution_id := execution_id, status := ExecutionStatus.failed,
        errors := ["Workflow contains cycles - cannot determine execution order"] }
    | Option.some order =>
      let execution_order := order.filterMap (node_by_id workflow.nodes)
      let run := run_nodes exec execution_order workflow.edges { execution_id := execution_id }
        input_data []
      let node_results := run.1
      let failed_nodes := node_results.filter (fun r => r.status = ExecutionStatus.failed)
      let final_output :=
        match node_results.reverse.find? (fun r => r.status = ExecutionStatus.completed) with
        | Option.some r => r.output_data
        | Option.none => PyVal.none
      { execution_id := execution_id,
        status := if failed_nodes.isEmpty then ExecutionStatus.completed
          else ExecutionStatus.failed,
        node_results := node_results,
        final_output := final_output,
        errors := failed_nodes.filterMap (fun r => r.error_message) }
  else
    { execution_id := execution_id, status := ExecutionStatus.failed,
      errors := ["Workflow validation failed: " ++ String.intercalate "; " validation_errors] }

/-- The final-output selection rule as the specification states it
(from the claim C4, for comparison with the code): the output of the
last sink (node with no outgoing edges) in execution order that
completed successfully; else the output of the last node in execution
order that completed successfully; else absent (`None`). -/
def claimed_final_output (edges : List WorkflowEdge)
    (node_results : List NodeExecutionResult) : PyVal :=
  let is_sink := fun (r : NodeExecutionResult) =>
    (edges.filter (fun e => e.source = r.node_id)).isEmpty
  match node_results.reverse.find?
      (fun r => is_sink r && decide (r.status = ExecutionStatus.completed)) with
  | Option.some r => r.output_data
  | Option.none =>
    match node_results.reverse.find? (fun r => r.status = ExecutionStatus.completed) with
    | Option.some r => r.output_data
    | Option.none => PyVal.none

/-! ## The executor contract (base_executor.py lines 70-142) -/

/-- Python `value is None` for the modelled values. -/
def PyVal.isNone : PyVal → Bool
  | PyVal.none => true
  | _ => false

/-- Python `logs[-10:]`: the last ten log entries. -/
def last_logs (n : Nat) (logs : List ExecutionLog) : List ExecutionLog :=
  logs.drop (logs.length - n)

/-- The exception path of `BaseNodeExecutor.execute`: log an error-level
entry and build a `failed` result carrying `str(e)` (its `output_data`
is left at the `None` default). -/
def executor_fail (node_type : String) (node : WorkflowNode) (ctx : ExecutionContext)
    (error_msg : String) : NodeExecutionResult × ExecutionContext :=
  let ctxe := ctx.log LogLevel.error
    ("Failed to execute " ++ node_type ++ " node: " ++ error_msg) (Option.some node.id)
  ({ node_id := node.id,
     status := ExecutionStatus.failed,
     error_message := Option.some error_msg,
     logs := last_logs 10 ctxe.logs }, ctxe)

/-- The log entries `BaseNodeExecutor.execute` writes before its guarded
block (lines 80-84): the start entry, the config entry and, when the
input is not `None`, the input-type entry. -/
def executor_entry_logs (node_type : String) (node : WorkflowNode)
    (context : ExecutionContext) (input_data : PyVal) : ExecutionContext :=
  let ctx1 := (context.log LogLevel.info
      ("Starting execution of " ++ node_type ++ " node") (Option.some node.id)).log
    LogLevel.debug "Node config" (Option.some node.id)
  if input_data.isNone then ctx1
  else ctx1.log LogLevel.debug "Input data type" (Option.some node.id)

/-- `BaseNodeExecutor.execute`, the sole execution entry point.  The
subclass hooks are parameters: `validate_config` may raise
(`Except.error` carries `str(e)`) or return a verdict, and
`execute_impl` may raise or return an output value, in both cases also
returning the context it may have logged into.  A `False` verdict raises
`ValueError` inside the guarded block.  Every exception from either hook
is caught: an error-level log entry is appended and a `failed` result
with the message is returned; on success a `completed` result carries
the output. -/
def BaseNodeExecutor.execute
    (node_type : String)
    (validate_config : List (String × PyVal) → Except String Bool)
    (execute_impl : WorkflowNode → ExecutionContext → PyVal →
      Except String PyVal × ExecutionContext)
    (node : WorkflowNode) (context : ExecutionContext) (input_data : PyVal) :
    NodeExecutionResult × ExecutionContext :=
  let ctx2 := executor_entry_logs node_type node context input_data
  match validate_config node.config with
  | Except.error e => executor_fail node_type node ctx2 e
  | Except.ok false =>
    executor_fail node_type node ctx2 ("Invalid configuration for " ++ node_type ++ " node")
  | Except.ok true =>
    let impl := execute_impl node ctx2 input_data
    match impl.1 with
    | Except.error e => executor_fail node_type node impl.2 e
    | Except.ok output_data =>
      let ctx3 := impl.2.log LogLevel.info
        ("Successfully completed " ++ node_type ++ " node") (Option.some node.id)
      ({ node_id := node.id,
         status := ExecutionStatus.completed,
         output_data := output_data,
         logs := last_logs 10 ctx3.logs }, ctx3)

/-! ## The dynamic endpoint publisher (dynamic_route_service.py) -/

/-- A registered route / endpoint descriptor (`EndpointInfo` reduced to
the routing-relevant method and path; description and host URL are
display strings derived from them). -/
structure EndpointInfo where
  method : String
  path : String
  deriving DecidableEq, Repr

/-- The node kinds that receive an AI completion action route. -/
def ai_completion_types : List NodeType :=
  [NodeType.groqllama, NodeType.claude4, NodeType.gemini, NodeType.chatbot]

/-- `_create_node_endpoints`: an action route for completion kinds
(`/completion`) or the graph-query kind (`/query`), then a `/status`
route for every node.  One `EndpointInfo` is appended per registered
route, so the same descriptor stands for the route. -/
def create_node_endpoints (node : WorkflowNode) (url_pref : String) : List EndpointInfo :=
  let node_path := "/nodes/" ++ node.id
  let action : List EndpointInfo :=
    if node.type ∈ ai_completion_types then
      [{ method := "POST", path := url_pref ++ node_path ++ "/completion" }]
    else if node.type = NodeType.graphrag then
      [{ method := "POST", path := url_pref ++ node_path ++ "/query" }]
    else []
  action ++ [{ method := "GET", path := url_pref ++ node_path ++ "/status" }]

/-- `_create_workflow_endpoints`: the three workflow-level routes
(health, execute, execute-stream), registered on the deployment router
only. -/
def create_workflow_endpoints : List EndpointInfo :=
  [{ method := "GET", path := "/health" },
   { method := "POST", path := "/execute" },
   { method := "POST", path := "/execute-stream" }]

/-- The routes registered on the prefixed deployment router by
`generate_routes_from_workflow`: per-node routes for every node, then
the workflow-level routes. -/
def deployment_router_routes (nodes : List WorkflowNode) (deployment_id : String) :
    List EndpointInfo :=
  (nodes.flatMap (fun n => create_node_endpoints n ("/api/deployed/" ++ deployment_id))) ++
    create_workflow_endpoints

/-- The routes registered on the unprefixed direct router: per-node
routes only (`_create_workflow_endpoints` is invoked with the deployment
router alone). -/
def direct_router_routes (nodes : List WorkflowNode) : List EndpointInfo :=
  nodes.flatMap (fun n => create_node_endpoints n "")

/-- A deployment record: the node and edge lists stored at registration
time together with the returned endpoint list. -/
structure DeploymentInfo where
  nodes : List WorkflowNode
  edges : List WorkflowEdge
  endpoints : List EndpointInfo

/-- The mutable state of `DynamicRouteService`: the deployment registry
and the custom AI configuration store. -/
structure DynamicRouteService where
  registered_routes : List (String × DeploymentInfo) := []
  custom_ai_configs : List (String × List (String × PyVal)) := []

/-- `generate_routes_from_workflow`: build the endpoint list (for every
node, the deployment-router endpoints then the direct-router endpoints;
finally the workflow-level endpoints) and store the deployment record
(nodes, edges, endpoints) in the registry. -/
def generate_routes_from_workflow (svc : DynamicRouteService)
    (workflow_nodes : List WorkflowNode) (workflow_edges : List WorkflowEdge)
    (deployment_id : String) : DynamicRouteService × List EndpointInfo :=
  let endpoints :=
    (workflow_nodes.flatMap (fun n =>
      create_node_endpoints n ("/api/deployed/" ++ deployment_id) ++
        create_node_endpoints n "")) ++
    create_workflow_endpoints
  let info : DeploymentInfo :=
    { nodes := workflow_nodes, edges := workflow_edges, endpoints := endpoints }
  ({ svc with registered_routes := dict_set svc.registered_routes deployment_id info },
   endpoints)

/-- The built-in AI default configuration table of `_get_default_config`
(float literals as rationals). -/
def ai_default_configs (node_type_str : String) : Option (List (String × PyVal)) :=
  if node_type_str = "groqllama" then
    Option.some [("model", PyVal.str "llama3-70b-8192"),
      ("temperature", PyVal.num (7/10)),
      ("max_tokens", PyVal.int 1000),
      ("system_prompt", PyVal.str "You are a helpful AI assistant that processes information."),
      ("user_prompt", PyVal.str "Please analyze and respond to the following:")]
  else if node_type_str = "claude4" then
    Option.some [("model", PyVal.str "claude-3-haiku-20240307"),
      ("temperature", PyVal.num (7/10)),
      ("max_tokens", PyVal.int 1000),
      ("system_prompt", PyVal.str "You are Claude, a helpful AI assistant."),
      ("user_prompt", PyVal.str "Please provide a thoughtful response to:")]
  else if node_type_str = "gemini" then
    Option.some [("model", PyVal.str "gemini-1.5-flash"),
      ("temperature", PyVal.num (7/10)),
      ("max_tokens", PyVal.int 1000),
      ("system_prompt", PyVal.str "You are Gemini, a helpful AI assistant."),
      ("user_prompt", PyVal.str "Please analyze and respond to:")]
  else if node_type_str = "chatbot" then
    Option.some [("model", PyVal.str "gpt-4o"),
      ("temperature", PyVal.num (7/10)),
      ("max_tokens", PyVal.int 1000),
      ("system_prompt", PyVal.str "You are a helpful AI chatbot."),
      ("user_prompt", PyVal.str "Please respond to:")]
  else Option.none

/-- `_get_default_config`: a stored custom configuration for the node
type wins; otherwise the graphrag table or the built-in AI table;
otherwise an empty dict. -/
def get_default_config (svc : DynamicRouteService) (node_type : NodeType) :
    List (String × PyVal) :=
  let s := node_type.str
  match dict_get svc.custom_ai_configs s with
  | Option.some cfg => cfg
  | Option.none =>
    if s = "graphrag" then
      [("operation", PyVal.str "query"),
       ("extract_entities", PyVal.bool true),
       ("extract_relationships", PyVal.bool true),
       ("max_results", PyVal.int 10)]
    else
      match ai_default_configs s with
      | Option.some cfg => cfg
      | Option.none => []

/-- The node types `update_ai_node_config` accepts. -/
def valid_ai_node_types : List String :=
  ["groqllama", "claude4", "gemini", "chatbot", "graphrag"]

/-- The fields `update_ai_node_config` requires for the completion
kinds. -/
def required_ai_config_fields : List String :=
  ["model", "temperature", "max_tokens", "system_prompt", "user_prompt"]

/-- `update_ai_node_config`: validate the node type (and, for completion
kinds, the presence of the required fields), then store the
configuration in the custom store; the Bool is the `success` flag of the
returned payload. -/
def update_ai_node_config (svc : DynamicRouteService) (node_type : String)
    (config : List (String × PyVal)) : DynamicRouteService × Bool :=
  if node_type ∉ valid_ai_node_types then (svc, false)
  else if node_type ∈ ["groqllama", "claude4", "gemini", "chatbot"] &&
      required_ai_config_fields.any (fun f => (dict_get config f).isNone) then
    (svc, false)
  else
    ({ svc with custom_ai_configs := dict_set svc.custom_ai_configs node_type config }, true)

/-- The configuration a deployed route actually executes a node with
(`_execute_single_node` lines 896-911 and its streaming twin): a node
stored with an empty config is filled in from `_get_default_config` at
invocation time, consulting the custom AI configuration store as it is
then; a non-empty config is used as stored. -/
def resolve_node_config (svc : DynamicRouteService) (node : WorkflowNode) : WorkflowNode :=
  if node.config.isEmpty then { node with config := get_default_config svc node.type }
  else node

/-! ## The publisher's chaining loop (dynamic_route_service.py
lines 449-867) -/

/-- A value stored in the chaining loop's `node_outputs`: either the
`NodeExecutionResult` returned by the executor, or a plain value (the
error dict built by the exception handler of `_execute_single_node`). -/
inductive ChainOutput
  | result (r : NodeExecutionResult)
  | raw (v : PyVal)

/-- `extract_output_data` inside `_prepare_node_input`: objects carrying
an `output_data` attribute are unwrapped, anything else (including a
missing entry, which Python's `dict.get` turns into `None`) is returned
as is. -/
def extract_output_data : Option ChainOutput → PyVal
  | Option.some (ChainOutput.result r) => r.output_data
  | Option.some (ChainOutput.raw v) => v
  | Option.none => PyVal.none

/-- The dict comprehension building `dependency_outputs`: one entry per
dependency id, in dependency order. -/
def dependency_outputs_map (dependency_ids : List String)
    (node_outputs : List (String × ChainOutput)) : List (String × PyVal) :=
  dependency_ids.foldl
    (fun acc d => dict_set acc d (extract_output_data (dict_get node_outputs d))) []

/-- `_prepare_node_input` (lines 834-867): no dependency yields the
initial input; one dependency yields its extracted output; several
dependencies yield the wrapper dict with the `dependency_outputs` map
and the `initial_input` entry. -/
def prepare_node_input (node_id : String) (dependency_ids : List String)
    (node_outputs : List (String × ChainOutput)) (initial_input : PyVal) : PyVal :=
  match dependency_ids with
  | [] => initial_input
  | [d] => extract_output_data (dict_get node_outputs d)
  | ds => PyVal.dict
      [("dependency_outputs", PyVal.dict (dependency_outputs_map ds node_outputs)),
       ("initial_input", initial_input)]

/-- The execution graph `_build_execution_graph` returns: node map,
dependency and dependent lists per node id (in node order, edge order
within), start nodes (no dependencies) and end nodes (no dependents). -/
structure ExecutionGraph where
  node_map : List (String × WorkflowNode)
  dependencies : List (String × List String)
  dependents : List (String × List String)
  start_nodes : List String
  end_nodes : List String

/-- `_build_execution_graph` (lines 449-492).  Edges with a falsy
(empty) endpoint are skipped by the `if source_id and target_id` guard. -/
def build_execution_graph (nodes : List WorkflowNode) (edges : List WorkflowEdge) :
    ExecutionGraph :=
  let edges2 := edges.filter (fun e => !e.source.isEmpty && !e.target.isEmpty)
  let dependencies := nodes.map (fun n =>
    (n.id, (edges2.filter (fun e => e.target = n.id)).map (fun e => e.source)))
  let dependents := nodes.map (fun n =>
    (n.id, (edges2.filter (fun e => e.source = n.id)).map (fun e => e.target)))
  { node_map := nodes.map (fun n => (n.id, n)),
    dependencies := dependencies,
    dependents := dependents,
    start_nodes := (dependencies.filter (fun p => p.2.isEmpty)).map (fun p => p.1),
    end_nodes := (dependents.filter (fun p => p.2.isEmpty)).map (fun p => p.1) }

/-- The mutable state of the chaining loop: the execution order list and
the `node_outputs` dict (the executed set is the set of ids in the
order list). -/
structure ChainState where
  execution_order : List String
  node_outputs : List (String × ChainOutput)

/-- The start-node loop of both chain runners: every start node is
executed directly against the caller's initial input, in start-node
order; node executions are abstracted by `exec` (an executor result or
the handler's error dict). -/
def run_start (exec : WorkflowNode → PyVal → ChainOutput)
    (node_map : List (String × WorkflowNode)) (initial_input : PyVal) :
    List String → ChainState → ChainState
  | [], st => st
  | i :: rest, st =>
    let result :=
      match dict_get node_map i with
      | Option.some node => exec node initial_input
      | Option.none => ChainOutput.raw PyVal.none
    run_start exec node_map initial_input rest
      { execution_order := st.execution_order ++ [i],
        node_outputs := dict_set st.node_outputs i result }

/-- One pass over the ready list computed at the top of a loop
iteration: each ready node gets its input from `_prepare_node_input`
over the current outputs and is executed. -/
def run_ready (exec : WorkflowNode → PyVal → ChainOutput)
    (node_map : List (String × WorkflowNode))
    (dependencies : List (String × List String)) (initial_input : PyVal) :
    List String → ChainState → ChainState
  | [], st => st
  | i :: rest, st =>
    let deps := (dict_get dependencies i).getD []
    let input := prepare_node_input i deps st.node_outputs initial_input
    let result :=
      match dict_get node_map i with
      | Option.some node => exec node input
      | Option.none => ChainOutput.raw PyVal.none
    run_ready exec node_map dependencies initial_input rest
      { execution_order := st.execution_order ++ [i],
        node_outputs := dict_set st.node_outputs i result }

/-- The ready list computed at the top of each loop iteration: the not
yet executed node ids all of whose dependencies have executed, in node
order. -/
def ready_nodes (dependencies : List (String × List String)) (done : List String) :
    List String :=
  (dependencies.filter
    (fun p => decide (p.1 ∉ done) && p.2.all (fun d => decide (d ∈ done)))).map
    (fun p => p.1)

/-- The `while len(executed_nodes) < len(nodes)` loop shared by
`_execute_workflow_chain` and its streaming twin: compute the ready
list, stop with a warning when it is empty (the stall path), otherwise
execute it and repeat.  `fuel` bounds the iterations (each non-final
iteration executes at least one node, so the node count plus one always
suffices). -/
def chain_loop (exec : WorkflowNode → PyVal → ChainOutput)
    (node_map : List (String × WorkflowNode))
    (dependencies : List (String × List String)) (initial_input : PyVal) :
    Nat → ChainState → ChainState
  | 0, st => st
  | Nat.succ fuel, st =>
    if node_map.length ≤ st.execution_order.length then st
    else
      match ready_nodes dependencies st.execution_order with
      | [] => st
      | ready =>
        chain_loop exec node_map dependencies initial_input fuel
          (run_ready exec node_map dependencies initial_input ready st)

/-- The final chain state of either route handler: start nodes first,
then the ready-set loop. -/
def run_workflow_chain (exec : WorkflowNode → PyVal → ChainOutput)
    (nodes : List WorkflowNode) (edges : List WorkflowEdge)
    (initial_input : PyVal) : ChainState :=
  let g := build_execution_graph nodes edges
  let st1 := run_start exec g.node_map initial_input g.start_nodes
    { execution_order := [], node_outputs := [] }
  chain_loop exec g.node_map g.dependencies initial_input (g.node_map.length + 1) st1

/-- Final-output selection of the synchronous `execute` route
(`_execute_workflow_chain` lines 574-585): when end nodes exist, take
the output recorded for the LAST end node, unconditionally (absent if it
never executed); only when there is no end node fall back to the last
executed node. -/
def sync_final_output (g : ExecutionGraph) (st : ChainState) : Option ChainOutput :=
  match g.end_nodes.getLast? with
  | Option.some final_node_id => dict_get st.node_outputs final_node_id
  | Option.none =>
    match st.execution_order.getLast? with
    | Option.some final_node_id => dict_get st.node_outputs final_node_id
    | Option.none => Option.none

/-- The `isinstance(output, dict) and output.get('error')` test of the
streaming selection: only the handler's raw error dicts count, a
`NodeExecutionResult` object never does. -/
def chain_output_is_error : ChainOutput → Bool
  | ChainOutput.raw (PyVal.dict es) =>
    (match dict_get es "error" with
     | Option.some v => v.truthy
     | Option.none => false)
  | _ => false

/-- Python `value is None` on an optional chain output (an entry that
was never assigned, or an assigned plain `None`). -/
def chain_output_is_pynone : Option ChainOutput → Bool
  | Option.none => true
  | Option.some (ChainOutput.raw PyVal.none) => true
  | _ => false

/-- The per-node condition of the streaming selection:
`node_id in node_outputs and not (isinstance(..., dict) and ...get('error'))`. -/
def stream_ok (st : ChainState) (i : String) : Bool :=
  match dict_get st.node_outputs i with
  | Option.some out => !chain_output_is_error out
  | Option.none => false

/-- Final-output selection of the `execute-stream` route
(`_execute_workflow_chain_streaming` lines 715-733): scan the end nodes
in reverse for one that executed with a non-error output; if the chosen
value is still `None`, scan the execution order in reverse the same
way. -/
def stream_final_output (g : ExecutionGraph) (st : ChainState) : Option ChainOutput :=
  let first : Option ChainOutput :=
    match g.end_nodes.reverse.find? (stream_ok st) with
    | Option.some i => dict_get st.node_outputs i
    | Option.none => Option.none
  if chain_output_is_pynone first && !st.execution_order.isEmpty then
    match st.execution_order.reverse.find? (stream_ok st) with
    | Option.some i => dict_get st.node_outputs i
    | Option.none => Option.none
  else first

/-- The synchronous `execute` route's result: the chain state and its
final output selection. -/
def execute_workflow_chain (exec : WorkflowNode → PyVal → ChainOutput)
    (nodes : List WorkflowNode) (edges : List WorkflowEdge)
    (initial_input : PyVal) : ChainState × Option ChainOutput :=
  let st := run_workflow_chain exec nodes edges initial_input
  (st, sync_final_output (build_execution_graph nodes edges) st)

/-- The `execute-stream` route's result: the same chain state with the
streaming final-output selection. -/
def execute_workflow_chain_streaming (exec : WorkflowNode → PyVal → ChainOutput)
    (nodes : List WorkflowNode) (edges : List WorkflowEdge)
    (initial_input : PyVal) : ChainState × Option ChainOutput :=
  let st := run_workflow_chain exec nodes edges initial_input
  (st, stream_final_output (build_execution_graph nodes edges) st)

/-! ## Association-list dictionary lemmas -/

theorem dict_get_nil {α : Type} (k : String) : dict_get ([] : List (String × α)) k = Option.none := rfl

theorem dict_get_set {α : Type} (d : List (String × α)) (k k1 : String) (v : α) :
    dict_get (dict_set d k v) k1 = if k1 = k then Option.some v else dict_get d k1 := by
  by_cases hf : (d.find? (fun p => p.1 = k)).isSome
  · have hset : dict_set d k v = d.map (fun p => if p.1 = k then (k, v) else p) := by
      simp [dict_set, hf]
    have hpred : ((fun p : String × α => decide (p.1 = k1)) ∘
        (fun p => if p.1 = k then (k, v) else p)) = fun p : String × α => decide (p.1 = k1) := by
      funext p
      by_cases hpk : p.1 = k
      · simp [Function.comp, hpk]
      · simp [Function.comp, hpk]
    rw [hset]
    unfold dict_get
    rw [List.find?_map, hpred]
    by_cases h : k1 = k
    · subst h
      rcases Option.isSome_iff_exists.1 hf with ⟨q, hq⟩
      have hq1 : q.1 = k1 := by simpa using List.find?_some hq
      simp [hq, hq1]
    · cases hq : d.find? (fun p : String × α => decide (p.1 = k1)) with
      | none => simp [h]
      | some q =>
        have hq1 : q.1 = k1 := by simpa using List.find?_some hq
        have hqk : ¬(q.1 = k) := by rw [hq1]; exact h
        simp [h, hqk]
  · have hset : dict_set d k v = d ++ [(k, v)] := by simp [dict_set, hf]
    rw [hset]
    unfold dict_get
    rw [List.find?_append]
    by_cases h : k1 = k
    · subst h
      have hnone : d.find? (fun p : String × α => decide (p.1 = k1)) = Option.none :=
        Option.not_isSome_iff_eq_none.1 hf
      simp [hnone]
    · have : ((fun p : String × α => decide (p.1 = k1)) (k, v)) = false := by
        simp
        exact fun h1 => h h1.symm
      simp only [List.find?_cons, List.find?_nil, this, if_neg h]
      cases d.find? (fun p : String × α => decide (p.1 = k1)) <;> simp

theorem dict_set_keys {α : Type} (d : List (String × α)) (k : String) (v : α) :
    (dict_set d k v).map Prod.fst = d.map Prod.fst ∨
      (dict_set d k v).map Prod.fst = d.map Prod.fst ++ [k] := by
  by_cases hfind : (d.find? (fun p => p.1 = k)).isSome
  · left
    simp only [dict_set, hfind, if_true, List.map_map]
    apply List.map_congr_left
    intro p _
    by_cases h : p.1 = k
    · simp [h, Function.comp]
    · simp [h, Function.comp]
  · right
    simp [dict_set, hfind]

theorem dict_set_keys_nodup {α : Type} (d : List (String × α)) (k : String) (v : α)
    (h : (d.map Prod.fst).Nodup) : ((dict_set d k v).map Prod.fst).Nodup := by
  by_cases hfind : (d.find? (fun p => p.1 = k)).isSome
  · have h1 : (dict_set d k v).map Prod.fst = d.map Prod.fst := by
      simp only [dict_set, hfind, if_true, List.map_map]
      apply List.map_congr_left
      intro p _
      by_cases hpk : p.1 = k
      · simp [hpk, Function.comp]
      · simp [hpk, Function.comp]
    rw [h1]; exact h
  · have : dict_set d k v = d ++ [(k, v)] := by simp [dict_set, hfind]
    rw [this, List.map_append]
    refine List.nodup_append.2 ⟨h, by simp, ?_⟩
    intro x hx hk
    simp only [List.map_cons, List.map_nil, List.mem_singleton] at hk
    subst hk
    rcases List.mem_map.1 hx with ⟨p, hp, hpk⟩
    have := List.find?_eq_none.1 (Option.not_isSome_iff_eq_none.1 hfind) p hp
    simp [hpk] at this

theorem foldl_dict_set_get {α β : Type} (g : β → String) (f : String → α) (l : List β)
    (acc : List (String × α)) (k : String) :
    dict_get (l.foldl (fun a e => dict_set a (g e) (f (g e))) acc) k =
      if k ∈ l.map g then Option.some (f k) else dict_get acc k := by
  induction l generalizing acc with
  | nil => simp
  | cons e es ih =>
    rw [List.foldl_cons, ih]
    by_cases hk : k ∈ es.map g
    · simp [hk]
    · by_cases hke : k = g e
      · simp [hk, hke, dict_get_set]
      · simp [hk, hke, dict_get_set]

theorem foldl_dict_set_keys_nodup {α β : Type} (g : β → String) (f : String → α)
    (l : List β) (acc : List (String × α)) (h : (acc.map Prod.fst).Nodup) :
    (((l.foldl (fun a e => dict_set a (g e) (f (g e))) acc)).map Prod.fst).Nodup := by
  induction l generalizing acc with
  | nil => simpa using h
  | cons e es ih =>
    rw [List.foldl_cons]
    exact ih _ (dict_set_keys_nodup _ _ _ h)

theorem mem_iff_dict_get {α : Type} (d : List (String × α)) (k : String) (v : α)
    (h : (d.map Prod.fst).Nodup) : (k, v) ∈ d ↔ dict_get d k = Option.some v := by
  induction d with
  | nil => simp [dict_get]
  | cons a tl ih =>
    simp only [List.map_cons, List.nodup_cons] at h
    constructor
    · intro hm
      rcases List.mem_cons.1 hm with hm | hm
      · subst hm
        simp [dict_get, List.find?_cons]
      · have hk : a.1 ≠ k := by
          intro hak
          apply h.1
          rw [hak]
          exact List.mem_map.2 ⟨(k, v), hm, rfl⟩
        have := (ih h.2).1 hm
        unfold dict_get at this ⊢
        rw [List.find?_cons_of_neg _ (by simpa using hk)]
        exact this
    · intro hg
      unfold dict_get at hg
      by_cases hak : a.1 = k
      · rw [List.find?_cons_of_pos _ (by simpa using hak)] at hg
        simp only [Option.map] at hg
        obtain ⟨a1, a2⟩ := a
        simp only at hak
        have h2 : a2 = v := Option.some_inj.1 hg
        subst hak
        subst h2
        exact List.mem_cons_self _ _
      · rw [List.find?_cons_of_neg _ (by simpa using hak)] at hg
        exact List.mem_cons_of_mem _ ((ih h.2).2 hg)

/-! ## C3: input aggregation of the Execution Service -/

theorem build_inputs_get (es : List WorkflowEdge) (ctx : ExecutionContext) (k : String) :
    dict_get (build_inputs es ctx) k =
      if k ∈ es.map (fun e => e.source) then Option.some (ctx.get_node_output k)
      else Option.none := by
  unfold build_inputs
  exact foldl_dict_set_get (fun (e : WorkflowEdge) => e.source)
    (fun s => ctx.get_node_output s) es [] k

theorem build_inputs_keys_nodup (es : List WorkflowEdge) (ctx : ExecutionContext) :
    ((build_inputs es ctx).map Prod.fst).Nodup := by
  unfold build_inputs
  exact foldl_dict_set_keys_nodup (fun (e : WorkflowEdge) => e.source)
    (fun s => ctx.get_node_output s) es [] (by simp)

/-- C3: for every node executed by the Workflow Execution Service, the
input computed by `_get_node_input_data` is: the run's initial input
when the node has no incoming edge; the unwrapped recorded output of the
single predecessor (not a map) when it has exactly one; and, when it has
two or more, exactly the map from each predecessor's node id to that
predecessor's recorded output and nothing else. -/
theorem node_input_aggregation (node : WorkflowNode) (edges : List WorkflowEdge)
    (ctx : ExecutionContext) (initial_input : PyVal) :
    (edges.filter (fun e => e.target = node.id) = [] →
      get_node_input_data node edges ctx initial_input = initial_input) ∧
    (∀ e0, edges.filter (fun e => e.target = node.id) = [e0] →
      get_node_input_data node edges ctx initial_input = ctx.get_node_output e0.source) ∧
    (2 ≤ (edges.filter (fun e => e.target = node.id)).length →
      ∃ m, get_node_input_data node edges ctx initial_input = PyVal.dict m ∧
        (m.map Prod.fst).Nodup ∧
        ∀ k v, ((k, v) ∈ m ↔
          (∃ e ∈ edges, e.target = node.id ∧ e.source = k) ∧
            v = ctx.get_node_output k)) := by
  refine ⟨?_, ?_, ?_⟩
  · intro h
    simp [get_node_input_data, h]
  · intro e0 h
    simp [get_node_input_data, h]
  · intro hlen
    rcases hfe : edges.filter (fun e => e.target = node.id) with _ | ⟨a, _ | ⟨b, rest⟩⟩
    · rw [hfe] at hlen; simp at hlen
    · rw [hfe] at hlen; simp at hlen
    · refine ⟨build_inputs (a :: b :: rest) ctx, ?_, build_inputs_keys_nodup _ _, ?_⟩
      · simp only [get_node_input_data, hfe]
      · intro k v
        rw [mem_iff_dict_get _ _ _ (build_inputs_keys_nodup _ _), build_inputs_get]
        constructor
        · intro h
          by_cases hk : k ∈ (a :: b :: rest).map (fun e => e.source)
          · rw [if_pos hk] at h
            rcases List.mem_map.1 hk with ⟨e, he, hek⟩
            have he2 : e ∈ edges.filter (fun e => e.target = node.id) := by rw [hfe]; exact he
            have := List.mem_filter.1 he2
            exact ⟨⟨e, this.1, by simpa using this.2, hek⟩, (Option.some_inj.1 h).symm⟩
          · rw [if_neg hk] at h
            exact absurd h (by simp)
        · rintro ⟨⟨e, he, het, hes⟩, hv⟩
          have hk : k ∈ (a :: b :: rest).map (fun e => e.source) := by
            rw [← hfe]
            exact List.mem_map.2 ⟨e, List.mem_filter.2 ⟨he, by simpa using het⟩, hes⟩
          rw [if_pos hk, hv]

/-- Concrete instance of `node_input_aggregation`: node `d` with the two
predecessors `b` and `c` receives the two-entry map. -/
theorem node_input_aggregation_witness :
    (2 ≤ (([⟨"e1", "b", "d"⟩, ⟨"e2", "c", "d"⟩] : List WorkflowEdge).filter
        (fun e => e.target = "d")).length) ∧
    ∃ m, get_node_input_data ⟨"d", NodeType.document, [], []⟩
        [⟨"e1", "b", "d"⟩, ⟨"e2", "c", "d"⟩]
        { execution_id := "w",
          node_results :=
            [("b", { node_id := "b", status := ExecutionStatus.completed,
                     output_data := PyVal.str "B" }),
             ("c", { node_id := "c", status := ExecutionStatus.completed,
                     output_data := PyVal.str "C" })] }
        PyVal.none = PyVal.dict m ∧
      (m.map Prod.fst).Nodup ∧
      ∀ k v, ((k, v) ∈ m ↔
        (∃ e ∈ ([⟨"e1", "b", "d"⟩, ⟨"e2", "c", "d"⟩] : List WorkflowEdge),
          e.target = "d" ∧ e.source = k) ∧
          v = ExecutionContext.get_node_output
            { execution_id := "w",
              node_results :=
                [("b", { node_id := "b", status := ExecutionStatus.completed,
                         output_data := PyVal.str "B" }),
                 ("c", { node_id := "c", status := ExecutionStatus.completed,
                         output_data := PyVal.str "C" })] } k) :=
  ⟨by decide,
    (node_input_aggregation ⟨"d", NodeType.document, [], []⟩
      [⟨"e1", "b", "d"⟩, ⟨"e2", "c", "d"⟩] _ PyVal.none).2.2 (by decide)⟩

/-! ## C8 and C10: the executor contract and missing-output semantics -/

/-- C8: `execute` never propagates an exception: for every node, context
and input it returns a `NodeExecutionResult` whose status is `completed`
or `failed`; when configuration validation raises (or vetoes the
configuration, which raises `ValueError` inside the guarded block) or
the kind-specific logic raises, the returned result is `failed`,
carries the error message, and an error-level log entry has been
appended to the context. -/
theorem executor_catches_exceptions
    (nt : String)
    (vc : List (String × PyVal) → Except String Bool)
    (impl : WorkflowNode → ExecutionContext → PyVal →
      Except String PyVal × ExecutionContext)
    (node : WorkflowNode) (ctx : ExecutionContext) (input : PyVal) :
    ((BaseNodeExecutor.execute nt vc impl node ctx input).1.status = ExecutionStatus.completed ∨
      (BaseNodeExecutor.execute nt vc impl node ctx input).1.status = ExecutionStatus.failed) ∧
    (∀ e, vc node.config = Except.error e →
      (BaseNodeExecutor.execute nt vc impl node ctx input).1.status = ExecutionStatus.failed ∧
      (BaseNodeExecutor.execute nt vc impl node ctx input).1.error_message = Option.some e ∧
      (BaseNodeExecutor.execute nt vc impl node ctx input).2.logs.getLast? =
        Option.some
          { level := LogLevel.error,
            message := "Failed to execute " ++ nt ++ " node: " ++ e,
            node_id := Option.some node.id }) ∧
    (vc node.config = Except.ok false →
      (BaseNodeExecutor.execute nt vc impl node ctx input).1.status = ExecutionStatus.failed ∧
      (BaseNodeExecutor.execute nt vc impl node ctx input).1.error_message =
        Option.some ("Invalid configuration for " ++ nt ++ " node")) ∧
    (∀ e, vc node.config = Except.ok true →
      (impl node (executor_entry_logs nt node ctx input) input).1 = Except.error e →
      (BaseNodeExecutor.execute nt vc impl node ctx input).1.status = ExecutionStatus.failed ∧
      (BaseNodeExecutor.execute nt vc impl node ctx input).1.error_message = Option.some e ∧
      (BaseNodeExecutor.execute nt vc impl node ctx input).2.logs.getLast? =
        Option.some
          { level := LogLevel.error,
            message := "Failed to execute " ++ nt ++ " node: " ++ e,
            node_id := Option.some node.id }) := by
  refine ⟨?_, ?_, ?_, ?_⟩
  · unfold BaseNodeExecutor.execute
    cases hvc : vc node.config with
    | error e => right; rfl
    | ok b =>
      cases b with
      | false => right; rfl
      | true =>
        cases himpl : (impl node (executor_entry_logs nt node ctx input) input).1 with
        | error e => simp [himpl, executor_fail]
        | ok out => simp [himpl]
  · intro e hvc
    unfold BaseNodeExecutor.execute
    rw [hvc]
    refine ⟨rfl, rfl, ?_⟩
    unfold executor_fail ExecutionContext.log
    simp
  · intro hvc
    unfold BaseNodeExecutor.execute
    rw [hvc]
    exact ⟨rfl, rfl⟩
  · intro e hvc himpl
    unfold BaseNodeExecutor.execute
    rw [hvc]
    simp only [himpl]
    refine ⟨rfl, rfl, ?_⟩
    unfold executor_fail ExecutionContext.log
    simp

/-- Concrete instance of `executor_catches_exceptions`: a validator that
raises is caught and turned into a `failed` result with the message. -/
theorem executor_catches_exceptions_witness :
    ((fun _ : List (String × PyVal) => (Except.error "boom" : Except String Bool)) [] =
      Except.error "boom") ∧
    ((BaseNodeExecutor.execute "document"
      (fun _ => Except.error "boom")
      (fun _ c _ => (Except.ok PyVal.none, c))
      ⟨"n1", NodeType.document, [], []⟩ { execution_id := "w" } PyVal.none).1.status =
        ExecutionStatus.failed ∧
     (BaseNodeExecutor.execute "document"
      (fun _ => Except.error "boom")
      (fun _ c _ => (Except.ok PyVal.none, c))
      ⟨"n1", NodeType.document, [], []⟩ { execution_id := "w" } PyVal.none).1.error_message =
        Option.some "boom" ∧
     (BaseNodeExecutor.execute "document"
      (fun _ => Except.error "boom")
      (fun _ c _ => (Except.ok PyVal.none, c))
      ⟨"n1", NodeType.document, [], []⟩ { execution_id := "w" } PyVal.none).2.logs.getLast? =
        Option.some
          { level := LogLevel.error,
            message := "Failed to execute " ++ "document" ++ " node: " ++ "boom",
            node_id := Option.some "n1" }) :=
  ⟨rfl,
    (executor_catches_exceptions "document"
      (fun _ => Except.error "boom")
      (fun _ c _ => (Except.ok PyVal.none, c))
      ⟨"n1", NodeType.document, [], []⟩ { execution_id := "w" } PyVal.none).2.1 "boom" rfl⟩

/-- C10: `get_node_output` returns `None` both when no result was ever
recorded under the id and when the recorded result carries no
`output_data` — as every `failed` result built by `execute` does — so a
node whose single predecessor failed receives `None` as its input,
indistinguishable from a predecessor that completed with output `None`. -/
theorem get_node_output_none_semantics :
    (∀ (ctx : ExecutionContext) (i : String),
      dict_get ctx.node_results i = Option.none → ctx.get_node_output i = PyVal.none) ∧
    (∀ (ctx : ExecutionContext) (i : String) (r : NodeExecutionResult),
      dict_get ctx.node_results i = Option.some r → ctx.get_node_output i = r.output_data) ∧
    (∀ nt vc impl (node : WorkflowNode) (ctx : ExecutionContext) (input : PyVal),
      (BaseNodeExecutor.execute nt vc impl node ctx input).1.status = ExecutionStatus.failed →
      (BaseNodeExecutor.execute nt vc impl node ctx input).1.output_data = PyVal.none) ∧
    (∀ (node : WorkflowNode) (edges : List WorkflowEdge) (initial : PyVal)
      (e0 : WorkflowEdge) (ctx1 ctx2 : ExecutionContext),
      edges.filter (fun e => e.target = node.id) = [e0] →
      ctx1.get_node_output e0.source = PyVal.none →
      ctx2.get_node_output e0.source = PyVal.none →
      get_node_input_data node edges ctx1 initial = PyVal.none ∧
      get_node_input_data node edges ctx1 initial =
        get_node_input_data node edges ctx2 initial) := by
  refine ⟨?_, ?_, ?_, ?_⟩
  · intro ctx i h
    unfold ExecutionContext.get_node_output
    rw [h]
  · intro ctx i r h
    unfold ExecutionContext.get_node_output
    rw [h]
  · intro nt vc impl node ctx input h
    unfold BaseNodeExecutor.execute at h ⊢
    simp only [] at h ⊢
    cases hvc : vc node.config with
    | error e => rfl
    | ok b =>
      cases b with
      | false => rfl
      | true =>
        cases himpl : (impl node (executor_entry_logs nt node ctx input) input).1 with
        | error e => rfl
        | ok out =>
          rw [hvc, himpl] at h
          have hne : ¬(ExecutionStatus.completed = ExecutionStatus.failed) := by decide
          exact absurd h hne
  · intro node edges initial e0 ctx1 ctx2 hf h1 h2
    constructor
    · simp [get_node_input_data, hf, h1]
    · simp [get_node_input_data, hf, h1, h2]

/-- Concrete instance of `get_node_output_none_semantics`: node `y` with
failed single predecessor `x` receives `None`, the same input as from a
context where `x` completed with output `None`. -/
theorem get_node_output_none_semantics_witness :
    (([⟨"e1", "x", "y"⟩] : List WorkflowEdge).filter (fun e => e.target = "y") =
      [⟨"e1", "x", "y"⟩]) ∧
    (get_node_input_data ⟨"y", NodeType.document, [], []⟩ [⟨"e1", "x", "y"⟩]
      { execution_id := "w",
        node_results := [("x", { node_id := "x", status := ExecutionStatus.failed,
                                 error_message := Option.some "boom" })] }
      (PyVal.str "init") = PyVal.none ∧
    get_node_input_data ⟨"y", NodeType.document, [], []⟩ [⟨"e1", "x", "y"⟩]
      { execution_id := "w",
        node_results := [("x", { node_id := "x", status := ExecutionStatus.failed,
                                 error_message := Option.some "boom" })] }
      (PyVal.str "init") =
    get_node_input_data ⟨"y", NodeType.document, [], []⟩ [⟨"e1", "x", "y"⟩]
      { execution_id := "w",
        node_results := [("x", { node_id := "x", status := ExecutionStatus.completed,
                                 output_data := PyVal.none })] }
      (PyVal.str "init")) :=
  ⟨by decide,
    get_node_output_none_semantics.2.2.2 ⟨"y", NodeType.document, [], []⟩
      [⟨"e1", "x", "y"⟩] (PyVal.str "init") ⟨"e1", "x", "y"⟩
      { execution_id := "w",
        node_results := [("x", { node_id := "x", status := ExecutionStatus.failed,
                                 error_message := Option.some "boom" })] }
      { execution_id := "w",
        node_results := [("x", { node_id := "x", status := ExecutionStatus.completed,
                                 output_data := PyVal.none })] }
      (by decide) rfl rfl⟩

/-! ## C5: multi-predecessor input in the publisher's chaining loop -/

/-- C5 counterexample: for node `d` with the two predecessors `b` and
`c`, the publisher's `_prepare_node_input` does not build the bare map
keyed by predecessor id that `_get_node_input_data` builds (and that the
claim asserts): it wraps that map under a `dependency_outputs` key and
adds an `initial_input` entry. -/
theorem prepare_node_input_counterexample :
    prepare_node_input "d" ["b", "c"]
      [("b", ChainOutput.raw (PyVal.str "B")), ("c", ChainOutput.raw (PyVal.str "C"))]
      PyVal.none =
      PyVal.dict
        [("dependency_outputs", PyVal.dict [("b", PyVal.str "B"), ("c", PyVal.str "C")]),
         ("initial_input", PyVal.none)] ∧
    get_node_input_data ⟨"d", NodeType.document, [], []⟩
      [⟨"e1", "b", "d"⟩, ⟨"e2", "c", "d"⟩]
      { execution_id := "w",
        node_results :=
          [("b", { node_id := "b", status := ExecutionStatus.completed,
                   output_data := PyVal.str "B" }),
           ("c", { node_id := "c", status := ExecutionStatus.completed,
                   output_data := PyVal.str "C" })] }
      PyVal.none = PyVal.dict [("b", PyVal.str "B"), ("c", PyVal.str "C")] ∧
    PyVal.dict
      [("dependency_outputs", PyVal.dict [("b", PyVal.str "B"), ("c", PyVal.str "C")]),
       ("initial_input", PyVal.none)] ≠
      PyVal.dict [("b", PyVal.str "B"), ("c", PyVal.str "C")] := by
  refine ⟨rfl, rfl, ?_⟩
  intro h
  have h2 := congrArg (fun v => match v with
    | PyVal.dict es => dict_get es "b"
    | _ => Option.none) h
  exact Option.noConfusion h2

/-- C5 amended: for a node with two or more predecessors the publisher
builds the wrapper dict whose `dependency_outputs` entry is the map
keyed by predecessor id (each value the predecessor's extracted output)
and whose `initial_input` entry is the caller's initial input; the inner
map follows the Execution Service's keying rule, but it is wrapped and
accompanied by the extra entry. -/
theorem prepare_node_input_wrapped (node_id : String) (deps : List String)
    (outs : List (String × ChainOutput)) (initial : PyVal)
    (h : 2 ≤ deps.length) :
    ∃ m, prepare_node_input node_id deps outs initial =
      PyVal.dict [("dependency_outputs", PyVal.dict m), ("initial_input", initial)] ∧
      (m.map Prod.fst).Nodup ∧
      ∀ k v, ((k, v) ∈ m ↔ k ∈ deps ∧ v = extract_output_data (dict_get outs k)) := by
  rcases hd : deps with _ | ⟨a, _ | ⟨b, rest⟩⟩
  · rw [hd] at h; simp at h
  · rw [hd] at h; simp at h
  · have hkeys : ((dependency_outputs_map (a :: b :: rest) outs).map Prod.fst).Nodup := by
      unfold dependency_outputs_map
      exact foldl_dict_set_keys_nodup (fun s : String => s)
        (fun s => extract_output_data (dict_get outs s)) (a :: b :: rest) [] (by simp)
    refine ⟨dependency_outputs_map (a :: b :: rest) outs, rfl, hkeys, ?_⟩
    intro k v
    rw [mem_iff_dict_get _ _ _ hkeys]
    have hget : dict_get (dependency_outputs_map (a :: b :: rest) outs) k =
        if k ∈ (a :: b :: rest).map (fun s : String => s)
        then Option.some (extract_output_data (dict_get outs k)) else Option.none := by
      unfold dependency_outputs_map
      exact foldl_dict_set_get (fun s : String => s)
        (fun s => extract_output_data (dict_get outs s)) (a :: b :: rest) [] k
    rw [hget]
    by_cases hk : k ∈ (a :: b :: rest)
    · simp [hk, eq_comm]
    · simp [hk]

/-- Concrete instance of `prepare_node_input_wrapped` for the two
predecessors `b`, `c`. -/
theorem prepare_node_input_wrapped_witness :
    (2 ≤ (["b", "c"] : List String).length) ∧
    ∃ m, prepare_node_input "d" ["b", "c"]
        [("b", ChainOutput.raw (PyVal.str "B")), ("c", ChainOutput.raw (PyVal.str "C"))]
        PyVal.none =
      PyVal.dict [("dependency_outputs", PyVal.dict m), ("initial_input", PyVal.none)] ∧
      (m.map Prod.fst).Nodup ∧
      ∀ k v, ((k, v) ∈ m ↔ k ∈ (["b", "c"] : List String) ∧
        v = extract_output_data (dict_get
          [("b", ChainOutput.raw (PyVal.str "B")), ("c", ChainOutput.raw (PyVal.str "C"))] k)) :=
  ⟨by decide,
    prepare_node_input_wrapped "d" ["b", "c"]
      [("b", ChainOutput.raw (PyVal.str "B")), ("c", ChainOutput.raw (PyVal.str "C"))]
      PyVal.none (by decide)⟩

/-! ## C6: deployment isolation -/

/-- A completion node deployed with an empty configuration. -/
def iso_node : WorkflowNode := { id := "x", type := NodeType.claude4, data := [], config := [] }

/-- The service state after deploying `iso_node` under `dep1`. -/
def iso_svc1 : DynamicRouteService :=
  (generate_routes_from_workflow {} [iso_node] [] "dep1").1

/-- A custom claude4 configuration stored after the deployment. -/
def iso_cfg : List (String × PyVal) :=
  [("model", PyVal.str "m2"), ("temperature", PyVal.num 0), ("max_tokens", PyVal.int 5),
   ("system_prompt", PyVal.str "s"), ("user_prompt", PyVal.str "u")]

/-- The service state after the post-deployment configuration update. -/
def iso_svc2 : DynamicRouteService := (update_ai_node_config iso_svc1 "claude4" iso_cfg).1

/-- C6 counterexample: updating the stored AI default configuration
after a deployment was created changes the configuration that the
already-created deployment's route executes its (empty-config) node
with, although the deployment record itself (nodes and edges) is
untouched and no redeployment happened. -/
theorem deployment_isolation_counterexample :
    (update_ai_node_config iso_svc1 "claude4" iso_cfg).2 = true ∧
    (dict_get iso_svc2.registered_routes "dep1").isSome = true ∧
    resolve_node_config iso_svc1 iso_node ≠ resolve_node_config iso_svc2 iso_node := by
  refine ⟨rfl, rfl, ?_⟩
  intro h
  have h2 := congrArg (fun n => match dict_get n.config "model" with
    | Option.some (PyVal.str s) => s
    | _ => "") h
  have h3 : ("claude-3-haiku-20240307" : String) = "m2" := h2
  exact absurd h3 (by decide)

/-- C6 amended: a deployed route's execution configuration for a node
with a non-empty stored config is exactly that stored config, whatever
the service's AI-default store holds, so such nodes are isolated from
later default mutations; a node stored with an empty config, however,
is resolved against `_get_default_config` at invocation time, so
mutating the AI default configurations after deployment does change the
already-created deployment's behavior (no redeploy needed). -/
theorem deployment_config_resolution (svc svc' : DynamicRouteService) (node : WorkflowNode) :
    (node.config.isEmpty = false →
      resolve_node_config svc node = node ∧
      resolve_node_config svc node = resolve_node_config svc' node) ∧
    (node.config.isEmpty = true →
      resolve_node_config svc node =
        { node with config := get_default_config svc node.type }) := by
  constructor
  · intro h
    unfold resolve_node_config
    rw [h]
    exact ⟨rfl, rfl⟩
  · intro h
    unfold resolve_node_config
    rw [h]
    rfl

/-- Concrete instance of `deployment_config_resolution`: a node with a
non-empty config resolves to itself in both service states. -/
theorem deployment_config_resolution_witness :
    ((([("model", PyVal.str "m0")] : List (String × PyVal))).isEmpty = false) ∧
    (resolve_node_config iso_svc1
        ⟨"y", NodeType.claude4, [], [("model", PyVal.str "m0")]⟩ =
      ⟨"y", NodeType.claude4, [], [("model", PyVal.str "m0")]⟩ ∧
     resolve_node_config iso_svc1
        ⟨"y", NodeType.claude4, [], [("model", PyVal.str "m0")]⟩ =
      resolve_node_config iso_svc2
        ⟨"y", NodeType.claude4, [], [("model", PyVal.str "m0")]⟩) :=
  ⟨rfl,
    (deployment_config_resolution iso_svc1 iso_svc2
      ⟨"y", NodeType.claude4, [], [("model", PyVal.str "m0")]⟩).1 rfl⟩

/-! ## C9: route-set size for a two-node deployment -/

theorem create_node_endpoints_length_completion (n : WorkflowNode) (p : String)
    (h : n.type ∈ ai_completion_types) : (create_node_endpoints n p).length = 2 := by
  simp [create_node_endpoints, h]

theorem create_node_endpoints_length_plain (n : WorkflowNode) (p : String)
    (h1 : n.type ∉ ai_completion_types) (h2 : ¬n.type = NodeType.graphrag) :
    (create_node_endpoints n p).length = 1 := by
  simp [create_node_endpoints, h1, h2]

/-- C9 counterexample: deploying the 2-node workflow (one claude4
completion node, one document node) registers 6 routes on the prefixed
deployment router, but only 3 more on the unprefixed direct router
(which carries no workflow-level routes), for a total of 9 — not the
claimed 12. -/
theorem route_count_counterexample :
    (deployment_router_routes
      [⟨"m", NodeType.claude4, [], []⟩, ⟨"d", NodeType.document, [], []⟩] "dep").length = 6 ∧
    (direct_router_routes
      [⟨"m", NodeType.claude4, [], []⟩, ⟨"d", NodeType.document, [], []⟩]).length = 3 ∧
    (deployment_router_routes
        [⟨"m", NodeType.claude4, [], []⟩, ⟨"d", NodeType.document, [], []⟩] "dep").length +
      (direct_router_routes
        [⟨"m", NodeType.claude4, [], []⟩, ⟨"d", NodeType.document, [], []⟩]).length = 9 ∧
    ¬(9 = 2 * 6) := by
  exact ⟨rfl, rfl, rfl, by decide⟩

/-- C9 amended: for every 2-node workflow of one model-completion node
and one document node, the prefixed deployment router registers exactly
6 routes (2 status + 1 completion action + 3 workflow-level); the
unprefixed direct router registers only the 3 per-node routes; the
endpoint list returned by `generate_routes_from_workflow` (from any
service state, edge list and deployment id) has 9 entries, not 12. -/
theorem route_count_two_node (n1 n2 : WorkflowNode) (svc : DynamicRouteService)
    (edges : List WorkflowEdge) (deployment_id : String)
    (h1 : n1.type ∈ ai_completion_types) (h2 : n2.type = NodeType.document) :
    (deployment_router_routes [n1, n2] deployment_id).length = 6 ∧
    (direct_router_routes [n1, n2]).length = 3 ∧
    ((generate_routes_from_workflow svc [n1, n2] edges deployment_id).2).length = 9 := by
  have hn2a : n2.type ∉ ai_completion_types := by rw [h2]; decide
  have hn2g : ¬n2.type = NodeType.graphrag := by rw [h2]; decide
  refine ⟨?_, ?_, ?_⟩
  · simp [deployment_router_routes, create_workflow_endpoints,
      create_node_endpoints_length_completion _ _ h1,
      create_node_endpoints_length_plain _ _ hn2a hn2g]
  · simp [direct_router_routes,
      create_node_endpoints_length_completion _ _ h1,
      create_node_endpoints_length_plain _ _ hn2a hn2g]
  · simp [generate_routes_from_workflow, create_workflow_endpoints,
      create_node_endpoints_length_completion _ _ h1,
      create_node_endpoints_length_plain _ _ hn2a hn2g]

/-- Concrete instance of `route_count_two_node`. -/
theorem route_count_two_node_witness :
    ((⟨"m", NodeType.claude4, [], []⟩ : WorkflowNode).type ∈ ai_completion_types) ∧
    ((deployment_router_routes
      [⟨"m", NodeType.claude4, [], []⟩, ⟨"d", NodeType.document, [], []⟩] "dep").length = 6 ∧
    (direct_router_routes
      [⟨"m", NodeType.claude4, [], []⟩, ⟨"d", NodeType.document, [], []⟩]).length = 3 ∧
    ((generate_routes_from_workflow {} 
        [⟨"m", NodeType.claude4, [], []⟩, ⟨"d", NodeType.document, [], []⟩] [] "dep").2).length
      = 9) :=
  ⟨by decide,
    route_count_two_node ⟨"m", NodeType.claude4, [], []⟩ ⟨"d", NodeType.document, [], []⟩
      {} [] "dep" (by decide) rfl⟩

/-! ## C4: final output of the Execution Service -/

theorem find?_reverse_eq_getLast?_filter {α : Type} (l : List α) (p : α → Bool) :
    l.reverse.find? p = (l.filter p).getLast? := by
  induction l with
  | nil => rfl
  | cons a tl ih =>
    rw [List.reverse_cons, List.find?_append, ih, List.filter_cons]
    by_cases hpa : p a
    · simp only [hpa, if_true]
      cases hfl : (tl.filter p).getLast? with
      | none =>
        have he : tl.filter p = [] := List.getLast?_eq_none_iff.1 hfl
        rw [he]
        simp [List.find?, hpa]
      | some x =>
        rcases List.getLast?_eq_some_iff.1 hfl with ⟨ys, hys⟩
        rw [hys]
        have hcat : a :: (ys ++ [x]) = (a :: ys) ++ [x] := rfl
        rw [hcat, List.getLast?_concat]
        simp
    · simp only [hpa, if_false]
      have hfa : List.find? p [a] = Option.none := by simp [List.find?, hpa]
      rw [hfa]
      cases hfl : (tl.filter p).getLast? <;> simp [hfl]

/-- The executor behaviour of the C4 counterexample run: node `d` fails,
every other node completes with its own id as output. -/
def c4_exec : WorkflowNode → ExecutionContext → PyVal → NodeExecutionResult := fun node _ _ =>
  if node.id = "d" then
    { node_id := node.id, status := ExecutionStatus.failed,
      error_message := Option.some "boom" }
  else
    { node_id := node.id, status := ExecutionStatus.completed,
      output_data := PyVal.str node.id }

/-- The C4 counterexample workflow: two chains `a → b` and `c → d`
(execution order `a, b, c, d`; sinks `b` and `d`). -/
def c4_wf : WorkflowDefinition :=
  { name := "w",
    nodes := [⟨"a", NodeType.document, [], []⟩, ⟨"b", NodeType.document, [], []⟩,
              ⟨"c", NodeType.document, [], []⟩, ⟨"d", NodeType.document, [], []⟩],
    edges := [⟨"e1", "a", "b"⟩, ⟨"e2", "c", "d"⟩] }

/-- C4 counterexample: in the run over `a → b`, `c → d` where only `d`
fails, the last sink that completed successfully is `b`, so the claimed
selection yields the output of `b`; the code instead returns the output
of `c`, the last node in execution order that completed — the sink
preference asserted by the claim does not exist in `execute_workflow`. -/
theorem final_output_counterexample :
    (execute_workflow c4_exec c4_wf PyVal.none).final_output = PyVal.str "c" ∧
    claimed_final_output c4_wf.edges
      (execute_workflow c4_exec c4_wf PyVal.none).node_results = PyVal.str "b" ∧
    PyVal.str "c" ≠ PyVal.str "b" := by
  refine ⟨rfl, rfl, ?_⟩
  intro h
  have h2 := congrArg (fun v => match v with
    | PyVal.str s => s
    | _ => "") h
  have h3 : ("c" : String) = "b" := h2
  exact absurd h3 (by decide)

/-- C4 amended: for every run (any executor behaviour, workflow and
input), the aggregate's final_output is the `output_data` of the last
node in execution order whose result status is `completed` — with no
preference for sink nodes — and `None` when no node completed (also on
the no-result exception paths). -/
theorem final_output_last_completed
    (exec : WorkflowNode → ExecutionContext → PyVal → NodeExecutionResult)
    (wf : WorkflowDefinition) (input : PyVal) (eid : String) :
    (execute_workflow exec wf input eid).final_output =
      match ((execute_workflow exec wf input eid).node_results.filter
          (fun r => r.status = ExecutionStatus.completed)).getLast? with
      | Option.some r => r.output_data
      | Option.none => PyVal.none := by
  unfold execute_workflow
  by_cases hv : (validate_workflow wf).isEmpty
  · simp only [hv, if_true]
    cases hs : topological_sort wf.nodes wf.edges with
    | none => rfl
    | some order =>
      simp only []
      rw [find?_reverse_eq_getLast?_filter]
  · simp only [hv, if_false]
    rfl

/-! ## C7: final-output selection of the deployed routes -/

/-- The executor behaviour of the C7 counterexample chain: node `d`
raises, so the handler stores its error dict; other nodes complete with
their id as raw output. -/
def c7_exec : WorkflowNode → PyVal → ChainOutput := fun node _ =>
  if node.id = "d" then ChainOutput.raw (PyVal.dict [("error", PyVal.bool true)])
  else ChainOutput.raw (PyVal.str node.id)

/-- The C7 counterexample graph: `a → b`, `a → d`; both `b` and `d` are
sinks (no dependents). -/
def c7_nodes : List WorkflowNode :=
  [⟨"a", NodeType.document, [], []⟩, ⟨"b", NodeType.document, [], []⟩,
   ⟨"d", NodeType.document, [], []⟩]

/-- Edges of the C7 counterexample graph. -/
def c7_edges : List WorkflowEdge := [⟨"e1", "a", "b"⟩, ⟨"e2", "a", "d"⟩]

/-- C7 counterexample: on the same chain state (`d` failed with an error
dict, `b` completed), the synchronous `execute` route surfaces the error
dict of the last sink `d` — an error value, which the claimed rule
excludes — while the `execute-stream` route skips it and surfaces `b`'s
output; the two routes do not select identically. -/
theorem route_final_output_counterexample :
    (execute_workflow_chain c7_exec c7_nodes c7_edges PyVal.none).2 =
      Option.some (ChainOutput.raw (PyVal.dict [("error", PyVal.bool true)])) ∧
    (execute_workflow_chain_streaming c7_exec c7_nodes c7_edges PyVal.none).2 =
      Option.some (ChainOutput.raw (PyVal.str "b")) ∧
    chain_output_is_error (ChainOutput.raw (PyVal.dict [("error", PyVal.bool true)])) = true ∧
    Option.some (ChainOutput.raw (PyVal.dict [("error", PyVal.bool true)])) ≠
      Option.some (ChainOutput.raw (PyVal.str "b")) := by
  refine ⟨rfl, rfl, rfl, ?_⟩
  intro h
  have h2 := congrArg (fun o => match o with
    | Option.some (ChainOutput.raw (PyVal.str s)) => s
    | _ => "") h
  have h3 : ("" : String) = "b" := h2
  exact absurd h3 (by decide)

/-- C7 amended: the two selections differ.  The streaming route follows
the claimed rule and in particular never surfaces an error value; the
synchronous route takes the recorded output of the last end node
unconditionally whenever the graph has end nodes (even when that output
is an error value or absent), falling back to the last executed node
only when there is no end node. -/
theorem route_final_output_selection (g : ExecutionGraph) (st : ChainState) :
    (∀ out, stream_final_output g st = Option.some out →
      chain_output_is_error out = false) ∧
    (∀ i, g.end_nodes.getLast? = Option.some i →
      sync_final_output g st = dict_get st.node_outputs i) := by
  constructor
  · intro out h
    unfold stream_final_output at h
    by_cases hc : (chain_output_is_pynone
        (match g.end_nodes.reverse.find? (stream_ok st) with
         | Option.some i => dict_get st.node_outputs i
         | Option.none => Option.none) && !st.execution_order.isEmpty) = true
    · rw [if_pos hc] at h
      cases hfind : st.execution_order.reverse.find? (stream_ok st) with
      | none => rw [hfind] at h; exact Option.noConfusion h
      | some i =>
        rw [hfind] at h
        have h' : dict_get st.node_outputs i = Option.some out := h
        have hok : stream_ok st i = true := List.find?_some hfind
        unfold stream_ok at hok
        rw [h'] at hok
        simpa using hok
    · rw [if_neg hc] at h
      cases hfind : g.end_nodes.reverse.find? (stream_ok st) with
      | none => rw [hfind] at h; exact Option.noConfusion h
      | some i =>
        rw [hfind] at h
        have h' : dict_get st.node_outputs i = Option.some out := h
        have hok : stream_ok st i = true := List.find?_some hfind
        unfold stream_ok at hok
        rw [h'] at hok
        simpa using hok
  · intro i h
    unfold sync_final_output
    rw [h]

/-- Concrete instance of `route_final_output_selection` on the C7
counterexample chain state. -/
theorem route_final_output_selection_witness :
    ((build_execution_graph c7_nodes c7_edges).end_nodes.getLast? = Option.some "d") ∧
    sync_final_output (build_execution_graph c7_nodes c7_edges)
        (run_workflow_chain c7_exec c7_nodes c7_edges PyVal.none) =
      dict_get (run_workflow_chain c7_exec c7_nodes c7_edges PyVal.none).node_outputs "d" :=
  ⟨rfl,
    (route_final_output_selection (build_execution_graph c7_nodes c7_edges)
      (run_workflow_chain c7_exec c7_nodes c7_edges PyVal.none)).2 "d" rfl⟩

/-! ## C1: correctness of the topological sort -/

instance id_le_total : IsTotal String id_le :=
  ⟨fun a b => le_total a.data b.data⟩

instance id_le_trans : IsTrans String id_le :=
  ⟨fun _ _ _ hab hbc => le_trans hab hbc⟩

theorem id_le_refl (a : String) : id_le a a := le_refl a.data

/-- Occurrence count of a value in a list of ids (multiplicity of a
successor in an adjacency list). -/
def cnt (l : List String) (v : String) : Nat := (l.filter (fun x => x = v)).length

theorem cnt_nil (v : String) : cnt [] v = 0 := rfl

theorem cnt_cons (n : String) (ns : List String) (v : String) :
    cnt (n :: ns) v = if n = v then cnt ns v + 1 else cnt ns v := by
  unfold cnt
  by_cases h : n = v
  · simp [List.filter_cons, h]
  · simp [List.filter_cons, h]

theorem cnt_pos_iff_mem (ns : List String) (v : String) : 1 ≤ cnt ns v ↔ v ∈ ns := by
  induction ns with
  | nil => simp [cnt_nil]
  | cons n tl ih =>
    rw [cnt_cons]
    by_cases h : n = v
    · subst h
      simp
    · have h2 : ¬(v = n) := fun h2 => h h2.symm
      simp [h, ih, h2]

theorem cnt_eq_zero_of_not_mem {ns : List String} {v : String} (h : v ∉ ns) : cnt ns v = 0 := by
  by_contra h2
  exact h ((cnt_pos_iff_mem ns v).1 (Nat.one_le_iff_ne_zero.2 h2))

/-- The number of edges into `v` whose source has already been emitted. -/
def incount (edges : List WorkflowEdge) (v : String) (done : List String) : Nat :=
  (edges.filter (fun e => e.target = v ∧ e.source ∈ done)).length

/-- Splitting a filter length by a second condition. -/
theorem length_filter_split {α : Type} (l : List α) (p q : α → Bool) :
    (l.filter p).length =
      (l.filter (fun x => p x && q x)).length +
        (l.filter (fun x => p x && !q x)).length := by
  induction l with
  | nil => rfl
  | cons a tl ih =>
    by_cases hp : p a
    · by_cases hq : q a
      · simp [List.filter_cons, hp, hq, ih]
        omega
      · simp [List.filter_cons, hp, hq, ih]
        omega
    · simp [List.filter_cons, hp, ih]

/-- Unfolding step of `dec_neighbors`. -/
theorem dec_neighbors_cons (n : String) (ns : List String) (indeg : String → Int)
    (queue : List String) :
    dec_neighbors (n :: ns) indeg queue =
      dec_neighbors ns (fun v => if v = n then indeg n - 1 else indeg v)
        (if indeg n - 1 = 0 then queue ++ [n] else queue) := rfl

/-- Behaviour of the neighbour-decrement loop: the in-degree of every
node drops by its multiplicity among the processed successors; a node
joins the queue exactly when that multiplicity consumes its whole
in-degree; and the queue stays duplicate-free.  The preconditions hold
along the run: queued nodes have in-degree zero, and no in-degree can
drop below zero (each remaining successor occurrence is a distinct
not-yet-processed edge). -/
theorem dec_neighbors_spec (ns : List String) :
    ∀ (d : String → Int) (q0 : List String),
    (∀ v ∈ q0, d v = 0) →
    (∀ v, (cnt ns v : Int) ≤ d v) →
    ((∀ v, (dec_neighbors ns d q0).1 v = d v - cnt ns v) ∧
     (∀ v, (v ∈ (dec_neighbors ns d q0).2 ↔
        v ∈ q0 ∨ (v ∈ ns ∧ d v = (cnt ns v : Int)))) ∧
     (q0.Nodup → (dec_neighbors ns d q0).2.Nodup)) := by
  induction ns with
  | nil =>
    intro d q0 h1 h2
    refine ⟨fun v => by simp [dec_neighbors, cnt_nil], fun v => by simp [dec_neighbors],
      fun h => by simpa [dec_neighbors] using h⟩
  | cons n ns ih =>
    intro d q0 h1 h2
    have hdn : (cnt ns n : Int) + 1 ≤ d n := by
      have := h2 n
      rw [cnt_cons] at this
      simp at this
      omega
    have hnq0 : n ∉ q0 := by
      intro hmem
      have := h1 n hmem
      omega
    set d' : String → Int := fun v => if v = n then d n - 1 else d v with hd'
    set q' : List String := if d n - 1 = 0 then q0 ++ [n] else q0 with hq'
    have h1' : ∀ v ∈ q', d' v = 0 := by
      intro v hv
      by_cases hc : d n - 1 = 0
      · rw [hq', if_pos hc] at hv
        rcases List.mem_append.1 hv with hv | hv
        · have hvn : v ≠ n := fun h => hnq0 (h ▸ hv)
          rw [hd']
          simp only [hvn, if_neg, if_false]
          exact h1 v hv
        · simp only [List.mem_singleton] at hv
          subst hv
          rw [hd']
          simp [hc]
      · rw [hq', if_neg hc] at hv
        have hvn : v ≠ n := fun h => hnq0 (h ▸ hv)
        rw [hd']
        simp only [hvn, if_neg, if_false]
        exact h1 v hv
    have h2' : ∀ v, (cnt ns v : Int) ≤ d' v := by
      intro v
      rw [hd']
      by_cases hv : v = n
      · subst hv
        simp only [if_pos rfl]
        omega
      · simp only [hv, if_false]
        have := h2 v
        rw [cnt_cons] at this
        have hnv : ¬(n = v) := fun h => hv h.symm
        rw [if_neg hnv] at this
        exact this
    rcases ih d' q' h1' h2' with ⟨ihv, ihm, ihn⟩
    rw [dec_neighbors_cons]
    refine ⟨?_, ?_, ?_⟩
    · intro v
      rw [← hd', ← hq', ihv v, cnt_cons]
      by_cases hv : n = v
      · subst hv
        simp [hd']
        omega
      · have hvn : ¬(v = n) := fun h => hv h.symm
        rw [if_neg hv, hd']
        simp [hvn]
    · intro v
      rw [← hd', ← hq', ihm v]
      by_cases hv : v = n
      · subst hv
        constructor
        · rintro (hq | ⟨hns, hdv⟩)
          · by_cases hc : d v - 1 = 0
            · right
              rw [cnt_cons, if_pos rfl]
              refine ⟨List.mem_cons_self v ns, ?_⟩
              have hcz : cnt ns v = 0 := by
                have hv1 : d v = 1 := by omega
                omega
              push_cast
              omega
            · rw [hq', if_neg hc] at hq
              exact absurd hq hnq0
          · right
            rw [cnt_cons, if_pos rfl]
            refine ⟨List.mem_cons_self v ns, ?_⟩
            rw [hd'] at hdv
            simp only [if_pos rfl] at hdv
            push_cast
            omega
        · rintro (hq | ⟨_, hdv⟩)
          · exact absurd hq hnq0
          · rw [cnt_cons, if_pos rfl] at hdv
            by_cases hns : v ∈ ns
            · right
              refine ⟨hns, ?_⟩
              rw [hd']
              simp only [if_pos rfl]
              push_cast at hdv ⊢
              omega
            · left
              have hcz : cnt ns v = 0 := cnt_eq_zero_of_not_mem hns
              rw [hcz] at hdv
              have hone : d v - 1 = 0 := by push_cast at hdv; omega
              rw [hq', if_pos hone]
              exact List.mem_append.2 (Or.inr (List.mem_singleton.2 rfl))
      · have hvn : ¬(n = v) := fun h => hv h.symm
        have hq'mem : v ∈ q' ↔ v ∈ q0 := by
          by_cases hc : d n - 1 = 0
          · rw [hq', if_pos hc, List.mem_append]
            simp [hv]
          · rw [hq', if_neg hc]
        rw [hq'mem, cnt_cons, if_neg hvn, hd']
        simp only [hv, if_false]
        constructor
        · rintro (hq | ⟨hns, hdv⟩)
          · exact Or.inl hq
          · exact Or.inr ⟨List.mem_cons_of_mem _ hns, hdv⟩
        · rintro (hq | ⟨hns, hdv⟩)
          · exact Or.inl hq
          · rcases List.mem_cons.1 hns with h | h
            · exact absurd h hv
            · exact Or.inr ⟨h, hdv⟩
    · intro hnodup
      apply ihn
      by_cases hc : d n - 1 = 0
      · rw [hq', if_pos hc]
        refine List.nodup_append.2 ⟨hnodup, List.nodup_singleton n, ?_⟩
        intro x hx hx2
        simp only [List.mem_singleton] at hx2
        subst hx2
        exact hnq0 hx
      · rw [hq', if_neg hc]
        exact hnodup

/-- The loop invariant of Kahn's algorithm in `_topological_sort`:
`done` is the emitted order so far, `q` the pending queue, `d` the
current in-degree table. -/
structure KahnInv (edges : List WorkflowEdge) (ids : List String)
    (q : List String) (d : String → Int) (done : List String) : Prop where
  done_nodup : done.Nodup
  done_sub : ∀ x ∈ done, x ∈ ids
  q_nodup : q.Nodup
  q_sub : ∀ x ∈ q, x ∈ ids
  q_not_done : ∀ x ∈ q, x ∉ done
  deg : ∀ v, d v = in_degree0 edges v - (incount edges v done : Int)
  q_iff : ∀ v ∈ ids, (v ∈ q ↔ v ∉ done ∧ d v = 0)
  emitted_order : ∀ e ∈ edges, e.target ∈ done →
    e.source ∈ done ∧ done.indexOf e.source < done.indexOf e.target

theorem incount_nil (edges : List WorkflowEdge) (v : String) : incount edges v [] = 0 := by
  simp [incount]

theorem incount_le_in_degree0 (edges : List WorkflowEdge) (v : String) (done : List String) :
    incount edges v done ≤ (edges.filter (fun e => e.target = v)).length := by
  apply List.Sublist.length_le
  apply List.monotone_filter_right
  intro e he
  simp only [decide_eq_true_eq] at he ⊢
  exact he.1

/-- The multiplicity of `v` among the successors of `u` is the number of
`u → v` edges. -/
theorem cnt_adjacency (edges : List WorkflowEdge) (u v : String) :
    cnt (adjacency edges u) v =
      (edges.filter (fun e => e.source = u ∧ e.target = v)).length := by
  induction edges with
  | nil => rfl
  | cons e tl ih =>
    unfold adjacency at ih ⊢
    by_cases hs : e.source = u
    · rw [List.filter_cons_of_pos (by simpa using hs), List.map_cons, cnt_cons]
      by_cases ht : e.target = v
      · rw [if_pos ht, List.filter_cons_of_pos (by simp [hs, ht]), List.length_cons, ih]
      · rw [if_neg ht, List.filter_cons_of_neg (by simp [ht]), ih]
    · rw [List.filter_cons_of_neg (by simpa using hs),
        List.filter_cons_of_neg (by simp [hs]), ih]

theorem incount_append_cur (edges : List WorkflowEdge) (v cur : String)
    (done : List String) (h : cur ∉ done) :
    incount edges v (done ++ [cur]) =
      incount edges v done +
        (edges.filter (fun e => e.source = cur ∧ e.target = v)).length := by
  induction edges with
  | nil => rfl
  | cons e tl ih =>
    unfold incount at ih ⊢
    by_cases ht : e.target = v
    · by_cases hs : e.source ∈ done
      · have hsc : ¬(e.source = cur) := fun h2 => h (h2 ▸ hs)
        rw [List.filter_cons_of_pos (by simp [ht, hs]),
          List.filter_cons_of_pos (by simp [ht, List.mem_append, hs]),
          List.filter_cons_of_neg (by simp [hsc])]
        simp only [List.length_cons]
        omega
      · by_cases hsc : e.source = cur
        · rw [List.filter_cons_of_pos (by simp [ht, List.mem_append, hsc]),
            List.filter_cons_of_neg (by simp [hs, ht]),
            List.filter_cons_of_pos (by simp [hsc, ht])]
          simp only [List.length_cons]
          omega
        · rw [List.filter_cons_of_neg (by simp [List.mem_append, hs, hsc]),
            List.filter_cons_of_neg (by simp [hs, ht]),
            List.filter_cons_of_neg (by simp [hsc])]
          exact ih
    · rw [List.filter_cons_of_neg (by simp [ht]),
        List.filter_cons_of_neg (by simp [ht]),
        List.filter_cons_of_neg (by simp [ht])]
      exact ih

/-- When the in-edge count from `done` exhausts the whole in-degree,
every in-edge source lies in `done`. -/
theorem sources_in_done_of_incount_eq (edges : List WorkflowEdge) (v : String)
    (done : List String)
    (h : incount edges v done = (edges.filter (fun e => e.target = v)).length) :
    ∀ e ∈ edges, e.target = v → e.source ∈ done := by
  intro e he het
  have hsub : List.Sublist (edges.filter (fun e => e.target = v ∧ e.source ∈ done))
      (edges.filter (fun e => e.target = v)) := by
    apply List.monotone_filter_right
    intro x hx
    simp only [decide_eq_true_eq] at hx ⊢
    exact hx.1
  have heq := hsub.eq_of_length h
  have hmem : e ∈ edges.filter (fun e => e.target = v) :=
    List.mem_filter.2 ⟨he, by simpa using het⟩
  rw [← heq] at hmem
  have := List.mem_filter.1 hmem
  simp only [decide_eq_true_eq] at this
  exact this.2.2

/-- Conversely, when every in-edge source lies in `done` the counts
agree. -/
theorem incount_eq_of_sources_in_done (edges : List WorkflowEdge) (v : String)
    (done : List String)
    (h : ∀ e ∈ edges, e.target = v → e.source ∈ done) :
    incount edges v done = (edges.filter (fun e => e.target = v)).length := by
  unfold incount
  congr 1
  apply List.filter_congr
  intro e he
  by_cases ht : e.target = v
  · simp [ht, h e he ht]
  · simp [ht]

/-- Pigeonhole: in a finite set in which every element has a predecessor
inside the set, iterating predecessors must revisit an element, which
yields a directed cycle. -/
theorem cycle_of_all_have_pred (S : List String) (R : String → String → Prop)
    (hne : S ≠ []) (h : ∀ v ∈ S, ∃ u ∈ S, R u v) :
    ∃ w, Relation.TransGen R w w := by
  classical
  obtain ⟨v0, hv0⟩ : ∃ v, v ∈ S := by
    cases S with
    | nil => exact absurd rfl hne
    | cons a tl => exact ⟨a, List.mem_cons_self a tl⟩
  -- iterate the predecessor choice
  let g : Nat → {x // x ∈ S} := fun n =>
    Nat.rec ⟨v0, hv0⟩
      (fun _ prev =>
        ⟨Classical.choose (h prev.1 prev.2),
         (Classical.choose_spec (h prev.1 prev.2)).1⟩) n
  have hstep : ∀ n, R (g (n + 1)).1 (g n).1 := fun n =>
    (Classical.choose_spec (h (g n).1 (g n).2)).2
  have htrans : ∀ k m, Relation.TransGen R (g (m + k + 1)).1 (g m).1 := by
    intro k
    induction k with
    | zero => intro m; exact Relation.TransGen.single (hstep m)
    | succ k ih =>
      intro m
      have h1 : R (g (m + k + 2)).1 (g (m + k + 1)).1 := hstep (m + k + 1)
      have h2 := ih m
      have : m + (k + 1) + 1 = m + k + 2 := by omega
      rw [this]
      exact Relation.TransGen.head h1 h2
  -- two indices below |S| + 1 collide
  have hmaps : ∀ i ∈ Finset.range (S.toFinset.card + 1), (g i).1 ∈ S.toFinset := by
    intro i _
    exact List.mem_toFinset.2 (g i).2
  have hcard : S.toFinset.card < (Finset.range (S.toFinset.card + 1)).card := by
    simp
  obtain ⟨i, hi, j, hj, hij, heq⟩ :=
    Finset.exists_ne_map_eq_of_card_lt_of_maps_to hcard hmaps
  rcases Nat.lt_or_ge i j with hlt | hge
  · refine ⟨(g j).1, ?_⟩
    have := htrans (j - i - 1) i
    have hji : i + (j - i - 1) + 1 = j := by omega
    rw [hji] at this
    rw [heq] at this
    exact this
  · have hlt2 : j < i := Nat.lt_of_le_of_ne hge (fun h2 => hij h2.symm)
    refine ⟨(g i).1, ?_⟩
    have := htrans (i - j - 1) j
    have hij2 : j + (i - j - 1) + 1 = i := by omega
    rw [hij2] at this
    rw [← heq] at this
    exact this

theorem nodup_subset_length {l m : List String} (hn : l.Nodup) (hs : ∀ x ∈ l, x ∈ m) :
    l.length ≤ m.length := by
  have h1 : l.toFinset.card = l.length := List.toFinset_card_of_nodup hn
  have h2 : l.toFinset ⊆ m.toFinset := fun x hx =>
    List.mem_toFinset.2 (hs x (List.mem_toFinset.1 hx))
  have h3 : m.toFinset.card ≤ m.length := m.toFinset_card_le
  have h4 := Finset.card_le_card h2
  omega

/-- The in-degree of `v` splits into edges from emitted and from
unemitted sources. -/
theorem in_degree_split (edges : List WorkflowEdge) (v : String) (done : List String) :
    (edges.filter (fun e => e.target = v)).length =
      incount edges v done +
        (edges.filter (fun e => e.target = v ∧ e.source ∉ done)).length := by
  induction edges with
  | nil => rfl
  | cons e tl ih =>
    unfold incount at ih ⊢
    by_cases ht : e.target = v
    · by_cases hs : e.source ∈ done
      · rw [List.filter_cons_of_pos (by simpa using ht),
          List.filter_cons_of_pos (by simp [ht, hs]),
          List.filter_cons_of_neg (by simp [ht, hs])]
        simp only [List.length_cons]
        omega
      · rw [List.filter_cons_of_pos (by simpa using ht),
          List.filter_cons_of_neg (by simp [ht, hs]),
          List.filter_cons_of_pos (by simp [ht, hs])]
        simp only [List.length_cons]
        omega
    · rw [List.filter_cons_of_neg (by simpa using ht),
        List.filter_cons_of_neg (by simp [ht]),
        List.filter_cons_of_neg (by simp [ht])]
      exact ih

theorem kahn_loop_nil (adj : String → List String) (fuel : Nat) (d : String → Int)
    (done : List String) : kahn_loop adj fuel [] d done = done := by
  cases fuel <;> rfl

theorem kahn_loop_cons (adj : String → List String) (fuel : Nat) (a : String)
    (qtl : List String) (d : String → Int) (done : List String) :
    kahn_loop adj (Nat.succ fuel) (a :: qtl) d done =
      match (a :: qtl).insertionSort id_le with
      | [] => done
      | cur :: rest =>
        kahn_loop adj fuel (dec_neighbors (adj cur) d rest).2
          (dec_neighbors (adj cur) d rest).1 (done ++ [cur]) := rfl

/-- The result properties the Kahn loop guarantees from a state whose
emitted list is `done`. -/
structure KahnRes (edges : List WorkflowEdge) (ids : List String)
    (done : List String) (res : List String) : Prop where
  ext : ∃ tail, res = done ++ tail
  nodup : res.Nodup
  sub : ∀ x ∈ res, x ∈ ids
  res_order : ∀ e ∈ edges, e.target ∈ res →
    e.source ∈ res ∧ res.indexOf e.source < res.indexOf e.target
  min_step : ∀ pre v suf, res = pre ++ v :: suf → done.length ≤ pre.length →
    ((v ∈ ids ∧ v ∉ pre ∧ ∀ e ∈ edges, e.target = v → e.source ∈ pre) ∧
     (∀ w, w ∈ ids → w ∉ pre → (∀ e ∈ edges, e.target = w → e.source ∈ pre) → id_le v w))
  complete : ¬ HasCycle edges → ∀ v ∈ ids, v ∈ res

/-- Exit analysis of the Kahn loop: when the queue is empty, the emitted
list already satisfies every result property; in particular, on an
acyclic graph, an unemitted node would start an infinite chain of
unemitted predecessors, which is impossible. -/
theorem kahn_base (edges : List WorkflowEdge) (ids : List String)
    (hends : ∀ e ∈ edges, e.source ∈ ids ∧ e.target ∈ ids)
    (d : String → Int) (done : List String)
    (inv : KahnInv edges ids [] d done) :
    KahnRes edges ids done done := by
  refine ⟨⟨[], (List.append_nil done).symm⟩, inv.done_nodup, inv.done_sub,
    inv.emitted_order, ?_, ?_⟩
  · intro pre v suf heq hlen
    exfalso
    have := congrArg List.length heq
    simp only [List.length_append, List.length_cons] at this
    omega
  · intro hacyc v hv
    by_contra hvd
    set S := ids.filter (fun x => decide (x ∉ done)) with hS
    have hmemS : ∀ x, x ∈ S ↔ x ∈ ids ∧ x ∉ done := by
      intro x
      rw [hS, List.mem_filter]
      simp
    have hSne : S ≠ [] :=
      List.ne_nil_of_mem ((hmemS v).2 ⟨hv, hvd⟩)
    have hpred : ∀ w ∈ S, ∃ u ∈ S, edgeRel edges u w := by
      intro w hwS
      rcases (hmemS w).1 hwS with ⟨hwids, hwdone⟩
      have hdw : d w ≠ 0 := by
        intro h0
        exact List.not_mem_nil w ((inv.q_iff w hwids).2 ⟨hwdone, h0⟩)
      have hle := incount_le_in_degree0 edges w done
      have hdeg := inv.deg w
      unfold in_degree0 at hdeg
      have hsplit := in_degree_split edges w done
      have hpos : 0 < (edges.filter (fun e => e.target = w ∧ e.source ∉ done)).length := by
        omega
      rcases List.exists_mem_of_length_pos hpos with ⟨e, he⟩
      have hef := List.mem_filter.1 he
      have hcond := hef.2
      simp only [decide_eq_true_eq] at hcond
      refine ⟨e.source, (hmemS e.source).2 ⟨(hends e hef.1).1, hcond.2⟩,
        ⟨e, hef.1, rfl, hcond.1⟩⟩
    rcases cycle_of_all_have_pred S (edgeRel edges) hSne hpred with ⟨w, hw⟩
    exact hacyc ⟨w, hw⟩

/-- One iteration of the Kahn loop preserves the invariant: popping the
minimum `cur` of the sorted queue, decrementing its successors and
emitting it yields a valid state again; moreover `cur` is eligible and
minimal among the eligible nodes. -/
theorem kahn_step_inv (edges : List WorkflowEdge) (ids : List String)
    (hends : ∀ e ∈ edges, e.source ∈ ids ∧ e.target ∈ ids)
    (q : List String) (d : String → Int) (done : List String)
    (inv : KahnInv edges ids q d done) (cur : String) (rest : List String)
    (hsort : q.insertionSort id_le = cur :: rest) :
    KahnInv edges ids (dec_neighbors (adjacency edges cur) d rest).2
      (dec_neighbors (adjacency edges cur) d rest).1 (done ++ [cur]) ∧
    (cur ∈ ids ∧ cur ∉ done ∧ ∀ e ∈ edges, e.target = cur → e.source ∈ done) ∧
    (∀ w, w ∈ ids → w ∉ done → (∀ e ∈ edges, e.target = w → e.source ∈ done) →
      id_le cur w) := by
  have hperm : (cur :: rest).Perm q := by
    rw [← hsort]; exact List.perm_insertionSort id_le q
  have hsorted : List.Sorted id_le (cur :: rest) := by
    rw [← hsort]; exact List.sorted_insertionSort id_le q
  have hcurq : cur ∈ q := hperm.mem_iff.1 (List.mem_cons_self _ _)
  have hsnodup : (cur :: rest).Nodup := hperm.nodup_iff.2 inv.q_nodup
  have hcurrest : cur ∉ rest := (List.nodup_cons.1 hsnodup).1
  have hrestnodup : rest.Nodup := (List.nodup_cons.1 hsnodup).2
  have hrestq : ∀ x ∈ rest, x ∈ q := fun x hx =>
    hperm.mem_iff.1 (List.mem_cons_of_mem _ hx)
  have hmin : ∀ x ∈ q, id_le cur x := by
    intro x hx
    rcases List.mem_cons.1 (hperm.mem_iff.2 hx) with h | h
    · subst h; exact id_le_refl x
    · exact (List.sorted_cons.1 hsorted).1 x h
  have hcurids : cur ∈ ids := inv.q_sub cur hcurq
  have hcurdone : cur ∉ done := inv.q_not_done cur hcurq
  have hdcur : d cur = 0 := ((inv.q_iff cur hcurids).1 hcurq).2
  have hincur : incount edges cur done =
      (edges.filter (fun e => e.target = cur)).length := by
    have hdeg := inv.deg cur
    unfold in_degree0 at hdeg
    have hle := incount_le_in_degree0 edges cur done
    omega
  have hcur_sources : ∀ e ∈ edges, e.target = cur → e.source ∈ done :=
    sources_in_done_of_incount_eq edges cur done hincur
  have hminelig : ∀ w, w ∈ ids → w ∉ done →
      (∀ e ∈ edges, e.target = w → e.source ∈ done) → id_le cur w := by
    intro w hwids hwdone hwsrc
    have hinw := incount_eq_of_sources_in_done edges w done hwsrc
    have hdeg := inv.deg w
    unfold in_degree0 at hdeg
    have hdw : d w = 0 := by omega
    exact hmin w ((inv.q_iff w hwids).2 ⟨hwdone, hdw⟩)
  have pre1 : ∀ v ∈ rest, d v = 0 := fun v hv =>
    ((inv.q_iff v (inv.q_sub v (hrestq v hv))).1 (hrestq v hv)).2
  have pre2 : ∀ v, (cnt (adjacency edges cur) v : Int) ≤ d v := by
    intro v
    have hdeg := inv.deg v
    unfold in_degree0 at hdeg
    have hcnt := cnt_adjacency edges cur v
    have hsplit := in_degree_split edges v done
    have hmono : (edges.filter (fun e => e.source = cur ∧ e.target = v)).length ≤
        (edges.filter (fun e => e.target = v ∧ e.source ∉ done)).length := by
      apply List.Sublist.length_le
      apply List.monotone_filter_right
      intro e he
      simp only [decide_eq_true_eq] at he ⊢
      exact ⟨he.2, fun hm => hcurdone (he.1 ▸ hm)⟩
    omega
  obtain ⟨ihv, ihm, ihn⟩ := dec_neighbors_spec (adjacency edges cur) d rest pre1 pre2
  have hq2ids : ∀ x ∈ (dec_neighbors (adjacency edges cur) d rest).2, x ∈ ids := by
    intro x hx
    rcases (ihm x).1 hx with h | ⟨hns, _⟩
    · exact inv.q_sub x (hrestq x h)
    · unfold adjacency at hns
      rcases List.mem_map.1 hns with ⟨e, he, hx2⟩
      exact hx2 ▸ (hends e (List.mem_filter.1 he).1).2
  have hdone_zero : ∀ x ∈ done, d x = 0 := by
    intro x hx
    have hsrc : ∀ e ∈ edges, e.target = x → e.source ∈ done := fun e he het =>
      (inv.emitted_order e he (het ▸ hx)).1
    have hin := incount_eq_of_sources_in_done edges x done hsrc
    have hdeg := inv.deg x
    unfold in_degree0 at hdeg
    omega
  have hq2done : ∀ x ∈ (dec_neighbors (adjacency edges cur) d rest).2,
      x ∉ done ++ [cur] := by
    intro x hx hxd
    rcases List.mem_append.1 hxd with hxd | hxd
    · rcases (ihm x).1 hx with h | ⟨hns, hdx⟩
      · exact inv.q_not_done x (hrestq x h) hxd
      · have h1 : 1 ≤ cnt (adjacency edges cur) x := (cnt_pos_iff_mem _ x).2 hns
        have h0 := hdone_zero x hxd
        omega
    · simp only [List.mem_singleton] at hxd
      rcases (ihm x).1 hx with h | ⟨hns, hdx⟩
      · rw [hxd] at h
        exact hcurrest h
      · have h1 : 1 ≤ cnt (adjacency edges cur) x := (cnt_pos_iff_mem _ x).2 hns
        rw [hxd] at hdx h1
        omega
  refine ⟨⟨?_, ?_, ?_, ?_, ?_, ?_, ?_, ?_⟩, ⟨hcurids, hcurdone, hcur_sources⟩, hminelig⟩
  · exact List.nodup_append.2 ⟨inv.done_nodup, List.nodup_singleton cur,
      fun x hx hx2 => (by simp only [List.mem_singleton] at hx2; subst hx2; exact hcurdone hx)⟩
  · intro x hx
    rcases List.mem_append.1 hx with h | h
    · exact inv.done_sub x h
    · simp only [List.mem_singleton] at h
      subst h
      exact hcurids
  · exact ihn hrestnodup
  · exact hq2ids
  · exact hq2done
  · intro v
    rw [ihv v]
    have hdeg := inv.deg v
    have happ := incount_append_cur edges v cur done hcurdone
    have hcnt := cnt_adjacency edges cur v
    rw [happ, hcnt]
    push_cast
    omega
  · intro v hvids
    constructor
    · intro hv
      refine ⟨hq2done v hv, ?_⟩
      rw [ihv v]
      rcases (ihm v).1 hv with h | ⟨hns, hdv⟩
      · have h0 := pre1 v h
        have h2 := pre2 v
        omega
      · omega
    · rintro ⟨hvd2, hd2v⟩
      rw [ihv v] at hd2v
      by_cases hc : cnt (adjacency edges cur) v = 0
      · have hdv : d v = 0 := by omega
        have hvdone : v ∉ done := fun h => hvd2 (List.mem_append_left _ h)
        have hvq : v ∈ q := (inv.q_iff v hvids).2 ⟨hvdone, hdv⟩
        rcases List.mem_cons.1 (hperm.mem_iff.2 hvq) with h | h
        · exact absurd (List.mem_append_right done (by simp [h]))
            hvd2
        · exact (ihm v).2 (Or.inl h)
      · have h1 : 1 ≤ cnt (adjacency edges cur) v := Nat.one_le_iff_ne_zero.2 hc
        exact (ihm v).2 (Or.inr ⟨(cnt_pos_iff_mem _ v).1 h1, by omega⟩)
  · intro e he het
    rcases List.mem_append.1 het with h | h
    · obtain ⟨hs, hidx⟩ := inv.emitted_order e he h
      refine ⟨List.mem_append_left _ hs, ?_⟩
      rw [List.indexOf_append_of_mem hs, List.indexOf_append_of_mem h]
      exact hidx
    · simp only [List.mem_singleton] at h
      have hs := hcur_sources e he h
      refine ⟨List.mem_append_left _ hs, ?_⟩
      rw [List.indexOf_append_of_mem hs, h, List.indexOf_append_of_not_mem hcurdone]
      have hlt : List.indexOf e.source done < done.length := List.indexOf_lt_length.2 hs
      omega

/-- Main lemma: from any invariant state with enough fuel, the Kahn loop
produces a result with all the guaranteed properties. -/
theorem kahn_loop_main (edges : List WorkflowEdge) (ids : List String)
    (hends : ∀ e ∈ edges, e.source ∈ ids ∧ e.target ∈ ids) :
    ∀ (fuel : Nat) (q : List String) (d : String → Int) (done : List String),
    KahnInv edges ids q d done →
    ids.length + 1 ≤ done.length + fuel →
    KahnRes edges ids done (kahn_loop (adjacency edges) fuel q d done) := by
  intro fuel
  induction fuel with
  | zero =>
    intro q d done inv hfuel
    exfalso
    have := nodup_subset_length inv.done_nodup inv.done_sub
    omega
  | succ fuel ih =>
    intro q d done inv hfuel
    cases q with
    | nil =>
      rw [kahn_loop_nil]
      exact kahn_base edges ids hends d done inv
    | cons a qtl =>
      rw [kahn_loop_cons]
      cases hsort : (a :: qtl).insertionSort id_le with
      | nil =>
        exfalso
        have hperm := List.perm_insertionSort id_le (a :: qtl)
        rw [hsort] at hperm
        have := hperm.length_eq
        simp at this
      | cons cur rest =>
        show KahnRes edges ids done
          (kahn_loop (adjacency edges) fuel (dec_neighbors (adjacency edges cur) d rest).2
            (dec_neighbors (adjacency edges cur) d rest).1 (done ++ [cur]))
        obtain ⟨inv2, ⟨hcurids, hcurdone, hcursrc⟩, hminelig⟩ :=
          kahn_step_inv edges ids hends (a :: qtl) d done inv cur rest hsort
        have hres := ih (dec_neighbors (adjacency edges cur) d rest).2
          (dec_neighbors (adjacency edges cur) d rest).1 (done ++ [cur]) inv2
          (by simp only [List.length_append, List.length_singleton]; omega)
        obtain ⟨⟨tail, htail⟩, hnodup, hsub, horder, hmins, hcompl⟩ := hres
        refine ⟨⟨cur :: tail, by rw [htail]; simp⟩, hnodup, hsub, horder, ?_, hcompl⟩
        intro pre v suf heq hlen
        rcases Nat.lt_or_ge pre.length (done.length + 1) with hl | hl
        · have hplen : pre.length = done.length := by omega
          have heq2 : pre ++ v :: suf = done ++ cur :: tail := by
            rw [← heq, htail]
            simp
          obtain ⟨hpre, hvs⟩ := List.append_inj heq2 hplen
          injection hvs with h1 h2
          subst hpre
          subst h1
          exact ⟨⟨hcurids, hcurdone, hcursrc⟩, hminelig⟩
        · exact hmins pre v suf heq
            (by simp only [List.length_append, List.length_singleton]; omega)

/-- C1: on a workflow with unique node ids, edges between existing
nodes, and no directed cycle, `_topological_sort` succeeds and returns a
list containing every node exactly once in which every edge goes from an
earlier to a later position; at every step the emitted node is the
lexicographically smallest among the eligible ones (not yet emitted,
all in-edge sources already emitted), so the order is uniquely
determined and re-running the sort yields the identical list. -/
theorem topological_sort_correct (nodes : List WorkflowNode) (edges : List WorkflowEdge)
    (hnodup : (nodes.map (fun n => n.id)).Nodup)
    (hends : ∀ e ∈ edges, e.source ∈ nodes.map (fun n => n.id) ∧
      e.target ∈ nodes.map (fun n => n.id))
    (hacyc : ¬ HasCycle edges) :
    ∃ order, topological_sort nodes edges = Option.some order ∧
      order.Perm (nodes.map (fun n => n.id)) ∧
      (∀ e ∈ edges, order.indexOf e.source < order.indexOf e.target) ∧
      (∀ pre v suf, order = pre ++ v :: suf →
        ((v ∈ nodes.map (fun n => n.id) ∧ v ∉ pre ∧
            ∀ e ∈ edges, e.target = v → e.source ∈ pre) ∧
         ∀ w, w ∈ nodes.map (fun n => n.id) → w ∉ pre →
           (∀ e ∈ edges, e.target = w → e.source ∈ pre) → v ≤ w)) ∧
      (∀ order2, topological_sort nodes edges = Option.some order2 → order2 = order) := by
  set ids := nodes.map (fun n => n.id) with hids
  have inv0 : KahnInv edges ids (ids.filter (fun v => in_degree0 edges v = 0))
      (in_degree0 edges) [] := by
    refine ⟨List.nodup_nil, by simp, hnodup.filter _, ?_, by simp, ?_, ?_, by simp⟩
    · intro x hx
      exact (List.mem_filter.1 hx).1
    · intro v
      rw [incount_nil]
      simp
    · intro v hv
      rw [List.mem_filter]
      simp [hv]
  have hres := kahn_loop_main edges ids hends (2 * ids.length + 1)
    (ids.filter (fun v => in_degree0 edges v = 0)) (in_degree0 edges) [] inv0
    (by omega)
  obtain ⟨⟨tail, htail⟩, hnodup2, hsub, horder, hmins, hcompl⟩ := hres
  have hperm : (kahn_loop (adjacency edges) (2 * ids.length + 1)
      (ids.filter (fun v => in_degree0 edges v = 0)) (in_degree0 edges) []).Perm ids :=
    (List.perm_ext_iff_of_nodup hnodup2 hnodup).mpr
      (fun x => ⟨fun hx => hsub x hx, fun hx => hcompl hacyc x hx⟩)
  have hlen := hperm.length_eq
  have hts : topological_sort nodes edges = Option.some
      (kahn_loop (adjacency edges) (2 * ids.length + 1)
        (ids.filter (fun v => in_degree0 edges v = 0)) (in_degree0 edges) []) := by
    show (if (kahn_loop (adjacency edges) (2 * ids.length + 1)
        (ids.filter (fun v => in_degree0 edges v = 0)) (in_degree0 edges) []).length =
          ids.length
      then Option.some (kahn_loop (adjacency edges) (2 * ids.length + 1)
        (ids.filter (fun v => in_degree0 edges v = 0)) (in_degree0 edges) [])
      else Option.none) = _
    rw [if_pos hlen]
  refine ⟨_, hts, hperm, ?_, ?_, ?_⟩
  · intro e he
    have htar : e.target ∈ _ := hcompl hacyc e.target (hends e he).2
    exact (horder e he htar).2
  · intro pre v suf heq
    obtain ⟨⟨h1, h2, h3⟩, h4⟩ := hmins pre v suf heq (by simp)
    exact ⟨⟨h1, h2, h3⟩, fun w hw1 hw2 hw3 => (id_le_iff v w).1 (h4 w hw1 hw2 hw3)⟩
  · intro order2 h2
    rw [hts] at h2
    exact (Option.some_inj.1 h2).symm

/-- The single-edge graph `a → b` has no directed cycle. -/
theorem no_cycle_single_edge : ¬ HasCycle [⟨"e", "a", "b"⟩] := by
  rintro ⟨v, hv⟩
  have hstep : ∀ x y, edgeRel [(⟨"e", "a", "b"⟩ : WorkflowEdge)] x y →
      x = "a" ∧ y = "b" := by
    rintro x y ⟨e, he, hs, ht⟩
    simp only [List.mem_singleton] at he
    subst he
    exact ⟨hs.symm, ht.symm⟩
  have hlast : ∀ x y, Relation.TransGen (edgeRel [⟨"e", "a", "b"⟩]) x y → y = "b" := by
    intro x y h
    induction h with
    | single hr => exact (hstep _ _ hr).2
    | tail _ hr _ => exact (hstep _ _ hr).2
  have hfirst : ∀ x y, Relation.TransGen (edgeRel [⟨"e", "a", "b"⟩]) x y → x = "a" := by
    intro x y h
    induction h with
    | single hr => exact (hstep _ _ hr).1
    | tail _ _ ih => exact ih
  have h1 := hlast v v hv
  have h2 := hfirst v v hv
  rw [h1] at h2
  exact absurd h2 (by decide)

/-- Concrete instance of `topological_sort_correct` on the two-node
graph `a → b` (nodes listed as `b, a`). -/
theorem topological_sort_correct_witness :
    ((([⟨"b", NodeType.document, [], []⟩, ⟨"a", NodeType.document, [], []⟩] :
        List WorkflowNode).map (fun n => n.id)).Nodup) ∧
    (∃ order, topological_sort
        [⟨"b", NodeType.document, [], []⟩, ⟨"a", NodeType.document, [], []⟩]
        [⟨"e", "a", "b"⟩] = Option.some order ∧
      order.Perm (([⟨"b", NodeType.document, [], []⟩,
        ⟨"a", NodeType.document, [], []⟩] : List WorkflowNode).map (fun n => n.id)) ∧
      (∀ e ∈ ([⟨"e", "a", "b"⟩] : List WorkflowEdge),
        order.indexOf e.source < order.indexOf e.target) ∧
      (∀ pre v suf, order = pre ++ v :: suf →
        ((v ∈ ([⟨"b", NodeType.document, [], []⟩,
              ⟨"a", NodeType.document, [], []⟩] : List WorkflowNode).map (fun n => n.id) ∧
            v ∉ pre ∧
            ∀ e ∈ ([⟨"e", "a", "b"⟩] : List WorkflowEdge),
              e.target = v → e.source ∈ pre) ∧
         ∀ w, w ∈ ([⟨"b", NodeType.document, [], []⟩,
             ⟨"a", NodeType.document, [], []⟩] : List WorkflowNode).map (fun n => n.id) →
           w ∉ pre →
           (∀ e ∈ ([⟨"e", "a", "b"⟩] : List WorkflowEdge), e.target = w → e.source ∈ pre) →
           v ≤ w)) ∧
      (∀ order2, topological_sort
          [⟨"b", NodeType.document, [], []⟩, ⟨"a", NodeType.document, [], []⟩]
          [⟨"e", "a", "b"⟩] = Option.some order2 → order2 = order)) :=
  ⟨by decide,
    topological_sort_correct
      [⟨"b", NodeType.document, [], []⟩, ⟨"a", NodeType.document, [], []⟩]
      [⟨"e", "a", "b"⟩] (by decide) (by decide) no_cycle_single_edge⟩

/-! ## C2: correctness of the cycle detection -/

/-- `y` occurs strictly deeper than `x` in the list `l` (there is a
suffix of `l` headed by `x` whose tail contains `y`).  On the black
list, which grows at the head in finishing order, this says `y`
finished before `x`. -/
def SufAfter (l : List String) (x y : String) : Prop :=
  ∃ t, (x :: t).IsSuffix l ∧ y ∈ t

theorem sufAfter_cons {l : List String} {x y : String} (a : String)
    (h : SufAfter l x y) : SufAfter (a :: l) x y := by
  rcases h with ⟨t, hsuf, hy⟩
  exact ⟨t, hsuf.trans (List.suffix_cons a l), hy⟩

theorem sufAfter_indexOf {l : List String} {x y : String} (hn : l.Nodup)
    (h : SufAfter l x y) : l.indexOf x < l.indexOf y := by
  rcases h with ⟨t, hsuf, hy⟩
  rcases hsuf with ⟨p, hp⟩
  subst hp
  have hnd := hn
  rw [List.nodup_append] at hnd
  obtain ⟨hpn, hxtn, hdisj⟩ := hnd
  have hxnt : x ∉ t := (List.nodup_cons.1 hxtn).1
  have hyx : y ≠ x := fun h2 => hxnt (h2 ▸ hy)
  have hxp : x ∉ p := fun h2 => hdisj h2 (List.mem_cons_self x t)
  have hyp : y ∉ p := fun h2 => hdisj h2 (List.mem_cons_of_mem x hy)
  rw [List.indexOf_append_of_not_mem hxp, List.indexOf_append_of_not_mem hyp,
    List.indexOf_cons_self, List.indexOf_cons_ne _ (fun h2 : x = y => hyx h2.symm)]
  omega

/-- The invariant of the three-colour DFS on the all-`false` path: gray
and black are duplicate-free disjoint sets of node ids, and every edge
out of a black node leads to a black node that finished earlier. -/
structure DfsInv (edges : List WorkflowEdge) (ids : List String) (s : DfsState) : Prop where
  gray_nodup : s.gray.Nodup
  black_nodup : s.black.Nodup
  disj : ∀ x ∈ s.gray, x ∉ s.black
  gray_sub : ∀ x ∈ s.gray, x ∈ ids
  black_sub : ∀ x ∈ s.black, x ∈ ids
  border : ∀ e ∈ edges, e.source ∈ s.black →
    e.target ∈ s.black ∧ SufAfter s.black e.source e.target

/-- Number of still-white nodes: bounds the admissible DFS depth. -/
def wcount (ids : List String) (s : DfsState) : Nat :=
  (ids.filter (fun x => x ∉ s.gray ∧ x ∉ s.black)).length

theorem wcount_mono (ids : List String) (s s' : DfsState) (hg : s'.gray = s.gray)
    (hb : ∀ x ∈ s.black, x ∈ s'.black) : wcount ids s' ≤ wcount ids s := by
  apply List.Sublist.length_le
  apply List.monotone_filter_right
  intro x hx
  simp only [decide_eq_true_eq, Bool.and_eq_true] at hx ⊢
  rw [hg] at hx
  exact ⟨hx.1, fun h2 => hx.2 (hb x h2)⟩

theorem wcount_gray_lt (ids : List String) (s : DfsState) (u : String)
    (hu : u ∈ ids) (hg : u ∉ s.gray) (hb : u ∉ s.black) :
    wcount ids ⟨u :: s.gray, s.black⟩ < wcount ids s := by
  have hsub : List.Sublist (ids.filter (fun x => x ∉ u :: s.gray ∧ x ∉ s.black))
      (ids.filter (fun x => x ∉ s.gray ∧ x ∉ s.black)) := by
    apply List.monotone_filter_right
    intro x hx
    simp only [decide_eq_true_eq, Bool.and_eq_true, List.mem_cons] at hx ⊢
    exact ⟨fun h2 => hx.1 (Or.inr h2), hx.2⟩
  rcases Nat.lt_or_ge (ids.filter (fun x => x ∉ u :: s.gray ∧ x ∉ s.black)).length
      (ids.filter (fun x => x ∉ s.gray ∧ x ∉ s.black)).length with h | h
  · exact h
  · exfalso
    have heq := hsub.eq_of_length (Nat.le_antisymm hsub.length_le h)
    have hmem : u ∈ ids.filter (fun x => x ∉ s.gray ∧ x ∉ s.black) :=
      List.mem_filter.2 ⟨hu, by simp [hg, hb]⟩
    rw [← heq] at hmem
    have := List.mem_filter.1 hmem
    simp at this

theorem sufAfter_head (x : String) (t : List String) {y : String} (hy : y ∈ t) :
    SufAfter (x :: t) x y :=
  ⟨t, List.suffix_refl _, hy⟩

/-- Climbing the gray stack: if consecutive stack entries are joined by
an edge from the deeper to the shallower one, every entry below the top
reaches the top. -/
theorem chain_reach (edges : List WorkflowEdge) :
    ∀ (g : List String) (a : String),
      List.Chain' (fun x y => edgeRel edges y x) (a :: g) →
      ∀ b ∈ g, Relation.TransGen (edgeRel edges) b a := by
  intro g
  induction g with
  | nil =>
    intro a _ b hb
    exact absurd hb (List.not_mem_nil b)
  | cons c gtl ih =>
    intro a hch b hb
    rw [List.chain'_cons] at hch
    rcases List.mem_cons.1 hb with hbc | hbg
    · subst hbc
      exact Relation.TransGen.single hch.1
    · exact Relation.TransGen.tail (ih c hch.2 b hbg) hch.1

theorem dfs_visit_zero (adj : String → List String) (u : String) (s : DfsState) :
    dfs_visit adj 0 u s =
      if u ∈ s.gray then (true, s) else if u ∈ s.black then (false, s) else (true, s) := rfl

theorem dfs_visit_succ (adj : String → List String) (fuel1 : Nat) (u : String) (s : DfsState) :
    dfs_visit adj (Nat.succ fuel1) u s =
      if u ∈ s.gray then (true, s)
      else if u ∈ s.black then (false, s)
      else
        match dfs_list_go (dfs_visit adj fuel1) (adj u) ⟨u :: s.gray, s.black⟩ with
        | (true, s2) => (true, s2)
        | (false, s2) => (false, ⟨s2.gray.erase u, u :: s2.black⟩) := rfl

/-- Behaviour of the neighbour loop, given the behaviour of the
recursive visitor: a `true` result certifies a cycle, a `false` result
restores the gray stack, preserves the invariant, extends the black list
at the head only, blackens every visited neighbour, and does not
increase the number of white nodes. -/
theorem dfs_list_go_spec (edges : List WorkflowEdge) (ids : List String)
    (visit : String → DfsState → Bool × DfsState) (G : List String) (fuel1 : Nat)
    (hvisit : ∀ x st, DfsInv edges ids st → st.gray = G →
      List.Chain' (fun a b => edgeRel edges b a) (x :: G) → x ∈ ids →
      wcount ids st ≤ fuel1 →
      ((visit x st).1 = true → HasCycle edges) ∧
      ((visit x st).1 = false →
        (visit x st).2.gray = G ∧ DfsInv edges ids (visit x st).2 ∧
        st.black.IsSuffix (visit x st).2.black ∧ x ∈ (visit x st).2.black ∧
        wcount ids (visit x st).2 ≤ wcount ids st)) :
    ∀ vs s, DfsInv edges ids s → s.gray = G →
      (∀ x ∈ vs, List.Chain' (fun a b => edgeRel edges b a) (x :: G) ∧ x ∈ ids) →
      wcount ids s ≤ fuel1 →
      ((dfs_list_go visit vs s).1 = true → HasCycle edges) ∧
      ((dfs_list_go visit vs s).1 = false →
        (dfs_list_go visit vs s).2.gray = G ∧
        DfsInv edges ids (dfs_list_go visit vs s).2 ∧
        s.black.IsSuffix (dfs_list_go visit vs s).2.black ∧
        (∀ x ∈ vs, x ∈ (dfs_list_go visit vs s).2.black) ∧
        wcount ids (dfs_list_go visit vs s).2 ≤ wcount ids s) := by
  intro vs
  induction vs with
  | nil =>
    intro s hinv hg _ _
    constructor
    · intro h
      simp [dfs_list_go] at h
    · intro _
      refine ⟨hg, hinv, List.suffix_refl _, ?_, le_refl _⟩
      intro x hx
      exact absurd hx (List.not_mem_nil x)
  | cons v rest ih =>
    intro s hinv hg hpre hw
    have hv := hvisit v s hinv hg (hpre v (List.mem_cons_self v rest)).1
      (hpre v (List.mem_cons_self v rest)).2 hw
    rcases hres : visit v s with ⟨b, s1⟩
    rw [hres] at hv
    cases b with
    | true =>
      have hstep : dfs_list_go visit (v :: rest) s = (true, s1) := by
        simp [dfs_list_go, hres]
      rw [hstep]
      exact ⟨fun _ => hv.1 rfl, fun h => by simp at h⟩
    | false =>
      obtain ⟨hg1, hinv1, hsuf1, hvb1, hw1⟩ := hv.2 rfl
      have hstep : dfs_list_go visit (v :: rest) s = dfs_list_go visit rest s1 := by
        simp [dfs_list_go, hres]
      rw [hstep]
      have hrest := ih s1 hinv1 hg1 (fun x hx => hpre x (List.mem_cons_of_mem v hx))
        (le_trans hw1 hw)
      refine ⟨hrest.1, fun h => ?_⟩
      obtain ⟨hg2, hinv2, hsuf2, hmem2, hw2⟩ := hrest.2 h
      refine ⟨hg2, hinv2, hsuf1.trans hsuf2, ?_, le_trans hw2 hw1⟩
      intro x hx
      rcases List.mem_cons.1 hx with hxv | hxr
      · subst hxv
        exact hsuf2.subset hvb1
      · exact hmem2 x hxr

/-- Behaviour of one `dfs` call from `_has_cycles`, provided the fuel
covers the number of white nodes: `true` certifies a directed cycle;
`false` restores the gray stack, keeps the invariant, pushes the visited
node (now black) on top of the old black list, and shrinks the white
set. -/
theorem dfs_visit_spec (edges : List WorkflowEdge) (ids : List String)
    (hends : ∀ e ∈ edges, e.source ∈ ids ∧ e.target ∈ ids) :
    ∀ (fuel : Nat) (u : String) (s : DfsState), DfsInv edges ids s →
      List.Chain' (fun a b => edgeRel edges b a) (u :: s.gray) →
      u ∈ ids → wcount ids s ≤ fuel →
      ((dfs_visit (adjacency edges) fuel u s).1 = true → HasCycle edges) ∧
      ((dfs_visit (adjacency edges) fuel u s).1 = false →
        (dfs_visit (adjacency edges) fuel u s).2.gray = s.gray ∧
        DfsInv edges ids (dfs_visit (adjacency edges) fuel u s).2 ∧
        s.black.IsSuffix (dfs_visit (adjacency edges) fuel u s).2.black ∧
        u ∈ (dfs_visit (adjacency edges) fuel u s).2.black ∧
        wcount ids (dfs_visit (adjacency edges) fuel u s).2 ≤ wcount ids s) := by
  intro fuel
  induction fuel with
  | zero =>
    intro u s hinv hchain hu hw
    by_cases hg : u ∈ s.gray
    · have heq : dfs_visit (adjacency edges) 0 u s = (true, s) := by
        rw [dfs_visit_zero, if_pos hg]
      rw [heq]
      exact ⟨fun _ => ⟨u, chain_reach edges s.gray u hchain u hg⟩, fun h => by simp at h⟩
    · by_cases hb : u ∈ s.black
      · have heq : dfs_visit (adjacency edges) 0 u s = (false, s) := by
          rw [dfs_visit_zero, if_neg hg, if_pos hb]
        rw [heq]
        exact ⟨fun h => by simp at h,
          fun _ => ⟨rfl, hinv, List.suffix_refl _, hb, le_refl _⟩⟩
      · exfalso
        have hmem : u ∈ ids.filter (fun x => x ∉ s.gray ∧ x ∉ s.black) :=
          List.mem_filter.2 ⟨hu, by simp [hg, hb]⟩
        have hpos : 0 < wcount ids s := List.length_pos.2 (List.ne_nil_of_mem hmem)
        omega
  | succ fuel1 ih =>
    intro u s hinv hchain hu hw
    by_cases hg : u ∈ s.gray
    · have heq : dfs_visit (adjacency edges) (Nat.succ fuel1) u s = (true, s) := by
        rw [dfs_visit_succ, if_pos hg]
      rw [heq]
      exact ⟨fun _ => ⟨u, chain_reach edges s.gray u hchain u hg⟩, fun h => by simp at h⟩
    · by_cases hb : u ∈ s.black
      · have heq : dfs_visit (adjacency edges) (Nat.succ fuel1) u s = (false, s) := by
          rw [dfs_visit_succ, if_neg hg, if_pos hb]
        rw [heq]
        exact ⟨fun h => by simp at h,
          fun _ => ⟨rfl, hinv, List.suffix_refl _, hb, le_refl _⟩⟩
      · have hinv1 : DfsInv edges ids ⟨u :: s.gray, s.black⟩ :=
          { gray_nodup := List.nodup_cons.2 ⟨hg, hinv.gray_nodup⟩
            black_nodup := hinv.black_nodup
            disj := by
              intro x hx
              rcases List.mem_cons.1 hx with h | h
              · subst h
                exact hb
              · exact hinv.disj x h
            gray_sub := by
              intro x hx
              rcases List.mem_cons.1 hx with h | h
              · subst h
                exact hu
              · exact hinv.gray_sub x h
            black_sub := hinv.black_sub
            border := hinv.border }
        have hwlt := wcount_gray_lt ids s u hu hg hb
        have hpre : ∀ x ∈ adjacency edges u,
            List.Chain' (fun a b => edgeRel edges b a) (x :: (u :: s.gray)) ∧ x ∈ ids := by
          intro x hx
          have hedge : edgeRel edges u x := by
            unfold adjacency at hx
            rcases List.mem_map.1 hx with ⟨e, hef, hte⟩
            rcases List.mem_filter.1 hef with ⟨he, hse⟩
            simp only [decide_eq_true_eq] at hse
            exact ⟨e, he, hse, hte⟩
          refine ⟨List.chain'_cons.2 ⟨hedge, hchain⟩, ?_⟩
          rcases hedge with ⟨e, he, _, ht2⟩
          have hti := (hends e he).2
          rw [ht2] at hti
          exact hti
        have hvisit : ∀ x st, DfsInv edges ids st → st.gray = u :: s.gray →
            List.Chain' (fun a b => edgeRel edges b a) (x :: (u :: s.gray)) → x ∈ ids →
            wcount ids st ≤ fuel1 →
            ((dfs_visit (adjacency edges) fuel1 x st).1 = true → HasCycle edges) ∧
            ((dfs_visit (adjacency edges) fuel1 x st).1 = false →
              (dfs_visit (adjacency edges) fuel1 x st).2.gray = u :: s.gray ∧
              DfsInv edges ids (dfs_visit (adjacency edges) fuel1 x st).2 ∧
              st.black.IsSuffix (dfs_visit (adjacency edges) fuel1 x st).2.black ∧
              x ∈ (dfs_visit (adjacency edges) fuel1 x st).2.black ∧
              wcount ids (dfs_visit (adjacency edges) fuel1 x st).2 ≤ wcount ids st) := by
          intro x st h1 h2 h3 h4 h5
          have hx := ih x st h1 (by rw [h2]; exact h3) h4 h5
          rw [h2] at hx
          exact hx
        have hlspec := dfs_list_go_spec edges ids (dfs_visit (adjacency edges) fuel1)
          (u :: s.gray) fuel1 hvisit (adjacency edges u) ⟨u :: s.gray, s.black⟩ hinv1 rfl
          hpre (by omega)
        rcases hres : dfs_list_go (dfs_visit (adjacency edges) fuel1) (adjacency edges u)
            ⟨u :: s.gray, s.black⟩ with ⟨b2, s2⟩
        rw [hres] at hlspec
        have heq : dfs_visit (adjacency edges) (Nat.succ fuel1) u s =
            match dfs_list_go (dfs_visit (adjacency edges) fuel1) (adjacency edges u)
                ⟨u :: s.gray, s.black⟩ with
            | (true, s2) => (true, s2)
            | (false, s2) => (false, ⟨s2.gray.erase u, u :: s2.black⟩) := by
          rw [dfs_visit_succ, if_neg hg, if_neg hb]
        rw [hres] at heq
        cases b2 with
        | true =>
          have heq2 : dfs_visit (adjacency edges) (Nat.succ fuel1) u s = (true, s2) := heq
          rw [heq2]
          exact ⟨fun _ => hlspec.1 rfl, fun h => by simp at h⟩
        | false =>
          have heq2 : dfs_visit (adjacency edges) (Nat.succ fuel1) u s =
              (false, ⟨s2.gray.erase u, u :: s2.black⟩) := heq
          obtain ⟨hg2, hinv2, hsuf2, hmem2, hw2⟩ := hlspec.2 rfl
          have hgr : s2.gray.erase u = s.gray := by
            rw [hg2]
            exact List.erase_cons_head u s.gray
          have hub2 : u ∉ s2.black :=
            hinv2.disj u (by rw [hg2]; exact List.mem_cons_self u s.gray)
          have hinv3 : DfsInv edges ids ⟨s.gray, u :: s2.black⟩ :=
            { gray_nodup := hinv.gray_nodup
              black_nodup := List.nodup_cons.2 ⟨hub2, hinv2.black_nodup⟩
              disj := by
                intro x hx hxm
                rcases List.mem_cons.1 hxm with h | h
                · exact hg (h ▸ hx)
                · exact hinv2.disj x (by rw [hg2]; exact List.mem_cons_of_mem u hx) h
              gray_sub := hinv.gray_sub
              black_sub := by
                intro x hx
                rcases List.mem_cons.1 hx with h | h
                · subst h
                  exact hu
                · exact hinv2.black_sub x h
              border := by
                intro e he hsrc
                rcases List.mem_cons.1 hsrc with h | h
                · have htadj : e.target ∈ adjacency edges u := by
                    unfold adjacency
                    exact List.mem_map.2 ⟨e, List.mem_filter.2 ⟨he, by simp [h]⟩, rfl⟩
                  have htb : e.target ∈ s2.black := hmem2 e.target htadj
                  refine ⟨List.mem_cons_of_mem u htb, ?_⟩
                  rw [h]
                  exact sufAfter_head u s2.black htb
                · obtain ⟨htb, hsa⟩ := hinv2.border e he h
                  exact ⟨List.mem_cons_of_mem u htb, sufAfter_cons u hsa⟩ }
          have hsuf3 : s.black.IsSuffix (u :: s2.black) :=
            hsuf2.trans (List.suffix_cons u s2.black)
          have hw3 : wcount ids ⟨s.gray, u :: s2.black⟩ ≤ wcount ids s :=
            wcount_mono ids s ⟨s.gray, u :: s2.black⟩ rfl
              (fun x hx => List.mem_cons_of_mem u (hsuf2.subset hx))
          have hinv3e : DfsInv edges ids ⟨s2.gray.erase u, u :: s2.black⟩ := by
            rw [hgr]
            exact hinv3
          have hw3e : wcount ids ⟨s2.gray.erase u, u :: s2.black⟩ ≤ wcount ids s := by
            rw [hgr]
            exact hw3
          rw [heq2]
          exact ⟨fun h => by simp at h,
            fun _ => ⟨hgr, hinv3e, hsuf3, List.mem_cons_self u s2.black, hw3e⟩⟩

/-- Behaviour of the `while white` loop of `_has_cycles`: a `true`
result certifies a directed cycle; a `false` result yields a final state
whose black set satisfies the invariant and swallows every root. -/
theorem has_cycles_loop_spec (edges : List WorkflowEdge) (ids : List String) (fuel : Nat)
    (hends : ∀ e ∈ edges, e.source ∈ ids ∧ e.target ∈ ids) :
    ∀ roots s, (∀ x ∈ roots, x ∈ ids) → DfsInv edges ids s → s.gray = [] →
      wcount ids s ≤ fuel →
      (has_cycles_loop (adjacency edges) fuel roots s = true → HasCycle edges) ∧
      (has_cycles_loop (adjacency edges) fuel roots s = false →
        ∃ t, DfsInv edges ids t ∧ (∀ x ∈ s.black, x ∈ t.black) ∧
          ∀ x ∈ roots, x ∈ t.black) := by
  intro roots
  induction roots with
  | nil =>
    intro s hroots hinv hg hw
    constructor
    · intro h
      simp [has_cycles_loop] at h
    · intro _
      refine ⟨s, hinv, fun x hx => hx, ?_⟩
      intro x hx
      exact absurd hx (List.not_mem_nil x)
  | cons n rest ih =>
    intro s hroots hinv hg hw
    by_cases hnb : n ∈ s.gray ∨ n ∈ s.black
    · have hnb2 : n ∈ s.black := by
        rcases hnb with h | h
        · rw [hg] at h
          exact absurd h (List.not_mem_nil n)
        · exact h
      have hstep : has_cycles_loop (adjacency edges) fuel (n :: rest) s =
          has_cycles_loop (adjacency edges) fuel rest s := by
        simp [has_cycles_loop, hnb]
      rw [hstep]
      have hrest := ih s (fun x hx => hroots x (List.mem_cons_of_mem n hx)) hinv hg hw
      refine ⟨hrest.1, fun h => ?_⟩
      obtain ⟨t, hinvt, hbl, hmem⟩ := hrest.2 h
      refine ⟨t, hinvt, hbl, ?_⟩
      intro x hx
      rcases List.mem_cons.1 hx with hxn | hxr
      · subst hxn
        exact hbl x hnb2
      · exact hmem x hxr
    · push_neg at hnb
      have hchain : List.Chain' (fun a b => edgeRel edges b a) (n :: s.gray) := by
        rw [hg]
        exact List.Chain.nil
      have hv := dfs_visit_spec edges ids hends fuel n s hinv hchain
        (hroots n (List.mem_cons_self n rest)) hw
      rcases hres : dfs_visit (adjacency edges) fuel n s with ⟨b, s1⟩
      rw [hres] at hv
      cases b with
      | true =>
        have hstep : has_cycles_loop (adjacency edges) fuel (n :: rest) s = true := by
          simp [has_cycles_loop, hres]
          exact Or.inl hnb
        rw [hstep]
        exact ⟨fun _ => hv.1 rfl, fun h => by simp at h⟩
      | false =>
        obtain ⟨hg1, hinv1, hsuf1, hnb1, hw1⟩ := hv.2 rfl
        have hstep : has_cycles_loop (adjacency edges) fuel (n :: rest) s =
            has_cycles_loop (adjacency edges) fuel rest s1 := by
          have hcond : ¬ (n ∈ s.gray ∨ n ∈ s.black) := by
            intro h
            rcases h with h | h
            · exact hnb.1 h
            · exact hnb.2 h
          simp [has_cycles_loop, hcond, hres]
        rw [hstep]
        have hrest := ih s1 (fun x hx => hroots x (List.mem_cons_of_mem n hx)) hinv1
          (hg1.trans hg) (le_trans hw1 hw)
        refine ⟨hrest.1, fun h => ?_⟩
        obtain ⟨t, hinvt, hbl, hmem⟩ := hrest.2 h
        refine ⟨t, hinvt, fun x hx => hbl x (hsuf1.subset hx), ?_⟩
        intro x hx
        rcases List.mem_cons.1 hx with hxn | hxr
        · rw [hxn]
          exact hbl n hnb1
        · exact hmem x hxr

/-- C2: on a workflow whose nodes carry unique ids and whose edges stay
among those ids, `_has_cycles` returns `true` exactly when the edge set
contains a directed cycle — including cycles in components unreachable
from any node without incoming edges, since the outer loop starts a DFS
from every still-white node. -/
theorem has_cycles_iff_cycle (nodes : List WorkflowNode) (edges : List WorkflowEdge)
    (hnodup : (nodes.map (fun n => n.id)).Nodup)
    (hends : ∀ e ∈ edges, e.source ∈ nodes.map (fun n => n.id) ∧
      e.target ∈ nodes.map (fun n => n.id)) :
    has_cycles nodes edges = true ↔ HasCycle edges := by
  have inv0 : DfsInv edges (nodes.map (fun n => n.id)) ⟨[], []⟩ :=
    { gray_nodup := List.nodup_nil
      black_nodup := List.nodup_nil
      disj := fun x hx => absurd hx (List.not_mem_nil x)
      gray_sub := fun x hx => absurd hx (List.not_mem_nil x)
      black_sub := fun x hx => absurd hx (List.not_mem_nil x)
      border := fun e _ hs => absurd hs (List.not_mem_nil _) }
  have hw0 : wcount (nodes.map (fun n => n.id)) ⟨[], []⟩ ≤
      (nodes.map (fun n => n.id)).length + 1 :=
    le_trans (List.length_filter_le _ _) (Nat.le_succ _)
  have hspec := has_cycles_loop_spec edges (nodes.map (fun n => n.id))
    ((nodes.map (fun n => n.id)).length + 1) hends (nodes.map (fun n => n.id)) ⟨[], []⟩
    (fun x hx => hx) inv0 rfl hw0
  have hun : has_cycles nodes edges = has_cycles_loop (adjacency edges)
      ((nodes.map (fun n => n.id)).length + 1) (nodes.map (fun n => n.id)) ⟨[], []⟩ := rfl
  constructor
  · intro h
    exact hspec.1 (by rw [← hun]; exact h)
  · intro hcyc
    by_contra hne
    have hfalse : has_cycles nodes edges = false := by
      cases h2 : has_cycles nodes edges
      · rfl
      · exact absurd h2 hne
    obtain ⟨t, hinvt, _, hmem⟩ := hspec.2 (by rw [← hun]; exact hfalse)
    have hstep : ∀ a b, edgeRel edges a b → t.black.indexOf a < t.black.indexOf b := by
      rintro a b ⟨e, he, hsrc, htgt⟩
      have hsb : e.source ∈ t.black := hmem e.source (hends e he).1
      obtain ⟨_, hsa⟩ := hinvt.border e he hsb
      have hlt := sufAfter_indexOf hinvt.black_nodup hsa
      rw [hsrc, htgt] at hlt
      exact hlt
    have hrank : ∀ a b, Relation.TransGen (edgeRel edges) a b →
        t.black.indexOf a < t.black.indexOf b := by
      intro a b h
      induction h with
      | single hr => exact hstep _ _ hr
      | tail _ hr ihr => exact lt_trans ihr (hstep _ _ hr)
    obtain ⟨w, hw⟩ := hcyc
    exact absurd (hrank w w hw) (lt_irrefl _)

/-- Concrete instance of the cycle-detection theorem on the two-node
cycle `a → b → a`. -/
theorem has_cycles_iff_cycle_witness :
    ((([⟨"a", NodeType.document, [], []⟩, ⟨"b", NodeType.document, [], []⟩] :
        List WorkflowNode).map (fun n => n.id)).Nodup) ∧
    has_cycles [⟨"a", NodeType.document, [], []⟩, ⟨"b", NodeType.document, [], []⟩]
      [⟨"e1", "a", "b"⟩, ⟨"e2", "b", "a"⟩] = true :=
  ⟨by decide,
    (has_cycles_iff_cycle
        [⟨"a", NodeType.document, [], []⟩, ⟨"b", NodeType.document, [], []⟩]
        [⟨"e1", "a", "b"⟩, ⟨"e2", "b", "a"⟩] (by decide) (by decide)).2
      ⟨"a", Relation.TransGen.head
        ⟨⟨"e1", "a", "b"⟩, List.mem_cons_self _ _, rfl, rfl⟩
        (Relation.TransGen.single
          ⟨⟨"e2", "b", "a"⟩, List.mem_cons_of_mem _ (List.mem_cons_self _ _), rfl, rfl⟩)⟩⟩
